import Mathlib

/-!
Verification of the image-preprocessing pipeline of `src/js/ocr_bridge.js`
(`preprocessForOcr`).

The pipeline operates on a decoded RGBA pixel buffer.  We model the buffer as
a list of pixels (the JS code walks the flat `data` array with stride 4, so one
list element corresponds to one group of four interleaved channel bytes).  The
stages are translated one-for-one from the source:

* grayscale conversion plus histogram construction (single pass, lines 55-63),
* Otsu threshold search over the 256-bin histogram (lines 65-84),
* binarization with white-pixel tally (lines 86-93),
* conditional polarity inversion (lines 95-103),
* the integer upscale-factor choice (lines 36-44),
* the orchestrator's failure handling (decode / context / encode, lines 25-127).

JS numbers are IEEE-754 binary64 floats, and the grayscale rounding and the
Otsu variance comparison are genuinely sensitive to their rounding, so the
float arithmetic is modelled exactly rather than idealized.  Every float value
arising in the pipeline is a nonnegative dyadic rational far from both the
overflow threshold and the subnormal range; on that range each binary64
operation is exactly "compute the real result, then round it to 53 significant
bits, to nearest, ties to even".  `F64` represents such a float as an exact
(non-normalized) dyadic `m · 2^k`, `round53` is the rounding step, and
`F64.mul`, `F64.add`, `divF` are the correctly rounded product, sum and
quotient.  Integer-valued quantities of the scan (`wB`, `sumB`, `totalPixels`,
`sum`, `wF`) stay below `2^53` for any buffer a canvas can produce, so the
floats holding them are exact and they are modelled as integers.
`Math.round(x)` is, per the ECMAScript specification, `⌊x + 1/2⌋` evaluated on
the exact mathematical value of `x` (ties round toward `+∞`); it is not a
float operation and is modelled by `F64.roundHalfUp`.  `x ** 2` is the
correctly rounded square, which equals the correctly rounded product `x * x`.
-/

/-! ### Exact model of the binary64 arithmetic used by the pipeline -/

/-- Number of binary digits of `n` (`0` for `n = 0`).  The first argument is
fuel making the recursion structural; `n` itself is always enough fuel since
`n < 2 ^ n` (see `bitLen`). -/
def bitLenAux : Nat → Nat → Nat
  | 0, _ => 0
  | fuel + 1, n => if n = 0 then 0 else bitLenAux fuel (n / 2) + 1

/-- `bitLen n` is the number of binary digits of `n`: the unique `L` with
`2 ^ (L - 1) ≤ n < 2 ^ L` for `n ≠ 0`, and `0` for `n = 0`. -/
def bitLen (n : Nat) : Nat := bitLenAux n n

/-- A nonnegative finite binary64 value, represented exactly as the dyadic
rational `m · 2 ^ k` (not necessarily normalized).  All floats arising in the
pipeline are of this shape. -/
structure F64 where
  m : Nat
  k : Int
deriving DecidableEq, Repr

/-- The exact rational value of a dyadic. -/
def F64.val (x : F64) : ℚ := (x.m : ℚ) * (2 : ℚ) ^ x.k

/-- Round a dyadic to 53 significant bits, to nearest, ties to even: the
IEEE-754 binary64 rounding applied to every arithmetic result, exact on the
normal range (all quantities in this pipeline are far from overflow and from
the subnormals). -/
def round53 (x : F64) : F64 :=
  if bitLen x.m ≤ 53 then x
  else
    ⟨if 2 ^ (bitLen x.m - 53 - 1) < x.m % 2 ^ (bitLen x.m - 53) then
        x.m / 2 ^ (bitLen x.m - 53) + 1
      else if x.m % 2 ^ (bitLen x.m - 53) < 2 ^ (bitLen x.m - 53 - 1) then
        x.m / 2 ^ (bitLen x.m - 53)
      else if (x.m / 2 ^ (bitLen x.m - 53)) % 2 = 1 then
        x.m / 2 ^ (bitLen x.m - 53) + 1
      else x.m / 2 ^ (bitLen x.m - 53),
    x.k + (bitLen x.m - 53)⟩

/-- Binary64 multiplication: the exact product, rounded.  JS `x ** 2`
evaluates to the same double as `x * x` (the correctly rounded square), so
the source's `(mB - mF) ** 2` is `d.mul d` for `d` the rounded difference. -/
def F64.mul (x y : F64) : F64 := round53 ⟨x.m * y.m, x.k + y.k⟩

/-- Binary64 addition of nonnegative dyadics: align to the smaller exponent,
add the mantissas exactly, round. -/
def F64.add (x y : F64) : F64 :=
  round53 ⟨x.m * 2 ^ (x.k - min x.k y.k).toNat + y.m * 2 ^ (y.k - min x.k y.k).toNat,
    min x.k y.k⟩

/-- Binary64 absolute difference `|x - y|`.  The source only ever squares the
difference `mB - mF`; binary64 rounding is symmetric under negation and
squaring discards the sign, so the absolute difference carries exactly the
information the pipeline uses. -/
def F64.subAbs (x y : F64) : F64 :=
  round53
    ⟨if y.m * 2 ^ (y.k - min x.k y.k).toNat ≤ x.m * 2 ^ (x.k - min x.k y.k).toNat then
        x.m * 2 ^ (x.k - min x.k y.k).toNat - y.m * 2 ^ (y.k - min x.k y.k).toNat
      else y.m * 2 ^ (y.k - min x.k y.k).toNat - x.m * 2 ^ (x.k - min x.k y.k).toNat,
    min x.k y.k⟩

/-- Binary64 comparison `x < y`: IEEE comparison is exact comparison of the
represented values. -/
def F64.blt (x y : F64) : Bool :=
  x.m * 2 ^ (x.k - min x.k y.k).toNat < y.m * 2 ^ (y.k - min x.k y.k).toNat

/-- ECMAScript `Math.round` on a nonnegative float: `⌊x + 1/2⌋` evaluated on
the exact value of `x` (ties toward `+∞`).  The spec defines it on the
mathematical value of the argument; it is not itself a rounding float
operation. -/
def F64.roundHalfUp (x : F64) : Nat :=
  if 0 ≤ x.k then x.m * 2 ^ x.k.toNat
  else (x.m + 2 ^ (-x.k - 1).toNat) / 2 ^ (-x.k).toNat

/-- The exponent `e` of the correctly rounded quotient of two positive
integers: `2 ^ e ≤ nm / dn < 2 ^ (e + 1)`, found from the bit lengths with a
one-step correction. -/
def divExp (nm dn : Nat) : Int :=
  if dn * 2 ^ ((bitLen nm : Int) - (bitLen dn : Int)).toNat ≤
      nm * 2 ^ (-((bitLen nm : Int) - (bitLen dn : Int))).toNat then
    (bitLen nm : Int) - (bitLen dn : Int)
  else (bitLen nm : Int) - (bitLen dn : Int) - 1

/-- Round the exact quotient `N / Dd` to the nearest integer, ties to even. -/
def divRound (N Dd : Nat) : Nat :=
  if Dd < 2 * (N % Dd) then N / Dd + 1
  else if 2 * (N % Dd) < Dd then N / Dd
  else if (N / Dd) % 2 = 1 then N / Dd + 1 else N / Dd

/-- Binary64 division `nm / dn` of two integer-valued floats (the pipeline
only divides exact integers below `2^53`): scale the quotient into
`[2^52, 2^53)`, round to nearest integer, ties to even.  This is the
correctly rounded quotient. -/
def divF (nm dn : Nat) : F64 :=
  if nm = 0 then ⟨0, 0⟩
  else
    ⟨divRound (nm * 2 ^ (52 - divExp nm dn).toNat) (dn * 2 ^ (divExp nm dn - 52).toNat),
      divExp nm dn - 52⟩

/-- The binary64 value of the literal `0.299` (the nearest double):
`5386305154335113 · 2⁻⁵⁴`. -/
def c299 : F64 := ⟨5386305154335113, -54⟩

/-- The binary64 value of the literal `0.587`: `5287225962532962 · 2⁻⁵³`. -/
def c587 : F64 := ⟨5287225962532962, -53⟩

/-- The binary64 value of the literal `0.114`: `8214565720323785 · 2⁻⁵⁶`. -/
def c114 : F64 := ⟨8214565720323785, -56⟩

/-! ### The pipeline, translated from `preprocessForOcr` -/

/-- One RGBA pixel: four interleaved channel bytes `data[i..i+3]` of the
canvas `ImageData`. -/
structure Pixel where
  r : Nat
  g : Nat
  b : Nat
  a : Nat
deriving DecidableEq, Repr

/-- The float64 evaluation of `0.299 * data[i] + 0.587 * data[i+1] +
0.114 * data[i+2]` (lines 58-60): three correctly rounded products, then two
correctly rounded additions, left-associated as in the source.  Channel
bytes are integers, hence exact floats `⟨c, 0⟩`. -/
def lumaF (r g b : Nat) : F64 :=
  ((c299.mul ⟨r, 0⟩).add (c587.mul ⟨g, 0⟩)).add (c114.mul ⟨b, 0⟩)

/-- Grayscale value of one pixel, from lines 58-60 of the source:
`Math.round` applied to the float64 sum. -/
def luma (r g b : Nat) : Nat := (lumaF r g b).roundHalfUp

/-- Grayscale pass (line 61): write the luma into all three color channels,
leaving alpha untouched. -/
def grayImg (img : List Pixel) : List Pixel :=
  img.map fun p =>
    let gv := luma p.r p.g p.b
    ⟨gv, gv, gv, p.a⟩

/-- Histogram construction (lines 56-62): starting from the zero histogram,
each pixel increments the bin of its grayscale value (`hist[g]++`). -/
def buildHist (img : List Pixel) : Nat → Nat :=
  img.foldl (fun h p => fun t => if t = luma p.r p.g p.b then h t + 1 else h t)
    (fun _ => 0)

/-- Total weighted intensity (line 68): `for (t = 0; t < 256; t++) sum += t * hist[t]`.
An exact integer: it stays below `2^53` for any canvas-sized buffer, so the
float accumulator holds it exactly. -/
def sumAll (hist : Nat → Nat) : Nat :=
  ∑ t ∈ Finset.range 256, t * hist t

/-- The Otsu scan loop (lines 70-84), one step per candidate threshold.
State: `sumB`, `wB`, `maxVar`, `threshold`, exactly the four mutable variables
of the source.  `continue` on an empty background class, early return
(`break`) on an empty foreground class, update of the running maximum only on
strict float comparison `variance > maxVar`.  The integer quantities `wB`,
`sumB`, `wF = totalPixels - wB` are exact in float64 (all below `2^53` for a
canvas buffer), so they are carried as integers and the foreground-weight
test `wF === 0` is the exact integer test; the means and the variance are
computed in rounding float64 arithmetic (`divF`, `F64.mul`, `F64.subAbs`).
The `total - wB'` fed to the float operations is Nat subtraction; in every
scan reached by the pipeline `total` is the full histogram mass, so
`wB' ≤ total` and this agrees with the JS value. -/
def otsuGo (hist : Nat → Nat) (total : Nat) (sum : Nat) :
    List Nat → Nat → Nat → F64 → Nat → Nat
  | [], _, _, _, threshold => threshold
  | t :: ts, sumB, wB, maxVar, threshold =>
    let wB' := wB + hist t
    if wB' = 0 then
      otsuGo hist total sum ts sumB wB' maxVar threshold
    else
      let wF : Int := (total : Int) - (wB' : Int)
      if wF = 0 then threshold
      else
        let sumB' := sumB + t * hist t
        let mB := divF sumB' wB'
        let mF := divF (sum - sumB') (total - wB')
        let d := mF.subAbs mB
        let variance := ((⟨wB', 0⟩ : F64).mul ⟨total - wB', 0⟩).mul (d.mul d)
        if maxVar.blt variance then
          otsuGo hist total sum ts sumB' wB' variance t
        else
          otsuGo hist total sum ts sumB' wB' maxVar threshold

/-- The Otsu solver (lines 66-84): scan all candidates `t = 0 .. 255` starting
from `sumB = 0`, `wB = 0`, `maxVar = 0.0`, `threshold = 128`. -/
def otsu (hist : Nat → Nat) (total : Nat) : Nat :=
  otsuGo hist total (sumAll hist) (List.range 256) 0 0 ⟨0, 0⟩ 128

/-- Binarization pass (lines 89-93): each color channel becomes 255 when the
(grayscale) value stored in the red channel exceeds the threshold, else 0;
alpha untouched. -/
def binarize (threshold : Nat) (img : List Pixel) : List Pixel :=
  img.map fun p =>
    let bw := if threshold < p.r then 255 else 0
    ⟨bw, bw, bw, p.a⟩

/-- The white-pixel tally accumulated during the binarization pass
(`if (bw === 255) whiteCount++`, line 92): the number of pixels whose stored
grayscale value exceeds the threshold. -/
def whiteCount (threshold : Nat) (img : List Pixel) : Nat :=
  img.countP fun p => decide (threshold < p.r)

/-- Inversion pass (lines 100-102): `data[i] = data[i+1] = data[i+2] = 255 - data[i]`
(the right-hand side is evaluated once, from the red channel, and written to
all three color channels); alpha untouched. -/
def invertImg (img : List Pixel) : List Pixel :=
  img.map fun p =>
    let v := 255 - p.r
    ⟨v, v, v, p.a⟩

/-- The three pixel passes of the orchestrator in order (lines 55-103):
grayscale+histogram, Otsu solve, binarize with white tally, conditional
inversion when black pixels strictly outnumber white ones
(`blackCount = totalPixels - whiteCount; if (blackCount > whiteCount)`). -/
def pipelineCore (img : List Pixel) : List Pixel :=
  let hist := buildHist img
  let total := img.length
  let threshold := otsu hist total
  let gray := grayImg img
  let bin := binarize threshold gray
  let white := whiteCount threshold gray
  let black := total - white
  if white < black then invertImg bin else bin

/-- The threshold chosen by one pipeline run on a given buffer. -/
def chosenThreshold (img : List Pixel) : Nat :=
  otsu (buildHist img) img.length

/-- Number of white pixels (value 255 in the red channel) in a final image. -/
def whiteCountImg (img : List Pixel) : Nat :=
  img.countP fun p => decide (p.r = 255)

/-- Number of black pixels (value 0 in the red channel) in a final image. -/
def blackCountImg (img : List Pixel) : Nat :=
  img.countP fun p => decide (p.r = 0)

/-- The scaler (lines 37-41): `scale = 1`, except `Math.ceil(2000 / maxDim)`
when `maxDim < 2000`.  For `0 < maxDim` the float64 division `2000 / maxDim`
is correctly rounded and at distance at least `1/1999` from any integer it is
not equal to, so its ceiling equals the exact ceiling `(2000 + maxDim - 1) / maxDim`. -/
def computeScale (width height : Nat) : Nat :=
  let maxDim := max width height
  if maxDim < 2000 then (2000 + maxDim - 1) / maxDim else 1

/-- A decoded image: canvas dimensions plus its `ImageData` pixels. -/
structure PixelBuffer where
  width : Nat
  height : Nat
  data : List Pixel

/-- Well-formedness guaranteed by `getImageData`: one RGBA quadruple per
pixel, every channel a byte. -/
def PixelBuffer.Wf (pb : PixelBuffer) : Prop :=
  pb.data.length = pb.width * pb.height ∧
    ∀ p ∈ pb.data, p.r ≤ 255 ∧ p.g ≤ 255 ∧ p.b ≤ 255 ∧ p.a ≤ 255

/-- Orchestrator control flow of `preprocessForOcr` (lines 25-127), with its
external effects abstracted: `decoded` is the outcome of image decoding
(`none` fires `img.onerror`, line 120), `ctxOk` tells whether the canvas
2d-context work succeeds (a `null` context makes line 47 throw, caught at
line 113), `encode` is `canvas.toBlob` (line 107; `none` models the encoder
invoking the callback with `null`).  The result is `some bytes` when the
promise resolves with `bytes`; it is `none` when the promise never settles:
on encode failure the callback evaluates `blob.arrayBuffer()` on `null`
(line 109), which throws outside the `try` of line 32, and no `resolve`
call is ever reached. -/
def preprocessForOcr (imageBytes : List Nat) (decoded : Option PixelBuffer)
    (ctxOk : Bool) (encode : List Pixel → Option (List Nat)) : Option (List Nat) :=
  match decoded with
  | none => some imageBytes
  | some pb =>
    if ctxOk then
      match encode (pipelineCore pb.data) with
      | some outBytes => some outBytes
      | none => none
    else
      some imageBytes

/-! ### Specification-side notions for the Otsu scan -/

/-- Running background weight after the candidates `0 .. a-1` have been
accumulated: `wB = hist 0 + ⋯ + hist (a-1)`. -/
def wAcc (hist : Nat → Nat) (a : Nat) : Nat :=
  ∑ i ∈ Finset.range a, hist i

/-- Running background intensity sum after the candidates `0 .. a-1`:
`sumB = 0·hist 0 + ⋯ + (a-1)·hist (a-1)`. -/
def sAcc (hist : Nat → Nat) (a : Nat) : Nat :=
  ∑ i ∈ Finset.range a, i * hist i

/-- Candidate `t` is actually scored by the scan: its background class
(intensities `≤ t`) and foreground class (intensities `> t`) are both
non-empty.  Candidates with empty background are skipped (`continue`), and
the scan stops at the first candidate with empty foreground, which together
with monotonicity of `wAcc` makes this the exact set of scored candidates. -/
def OtsuValid (hist : Nat → Nat) (total t : Nat) : Prop :=
  0 < wAcc hist (t + 1) ∧ wAcc hist (t + 1) < total

instance (hist : Nat → Nat) (total t : Nat) : Decidable (OtsuValid hist total t) :=
  inferInstanceAs (Decidable (0 < wAcc hist (t + 1) ∧ wAcc hist (t + 1) < total))

/-- The between-class variance float `wB * wF * (mB - mF) ** 2` of candidate
`t`, exactly as the loop body computes it in binary64 (lines 74-79). -/
def otsuVarF (hist : Nat → Nat) (total t : Nat) : F64 :=
  ((⟨wAcc hist (t + 1), 0⟩ : F64).mul ⟨total - wAcc hist (t + 1), 0⟩).mul
    (((divF (sumAll hist - sAcc hist (t + 1)) (total - wAcc hist (t + 1))).subAbs
        (divF (sAcc hist (t + 1)) (wAcc hist (t + 1)))).mul
      ((divF (sumAll hist - sAcc hist (t + 1)) (total - wAcc hist (t + 1))).subAbs
        (divF (sAcc hist (t + 1)) (wAcc hist (t + 1)))))

/-- Specification-side only: the exact rational reading
`wB · wF · (meanB - meanF)²` of the variance formula, the real-number
quantity that the float64 loop body only approximates.  Used to compare the
claimed exact-arithmetic maximizer rule against the implemented float one. -/
def otsuVarExact (hist : Nat → Nat) (total t : Nat) : ℚ :=
  ((wAcc hist (t + 1) : ℚ)) * (((total : Int) - (wAcc hist (t + 1) : Int) : Int) : ℚ) *
    ((sAcc hist (t + 1) : ℚ) / (wAcc hist (t + 1) : ℚ) -
      ((sumAll hist : ℚ) - (sAcc hist (t + 1) : ℚ)) /
        (((total : Int) - (wAcc hist (t + 1) : Int) : Int) : ℚ)) ^ 2

/-- Specification-side only: the exact half-up rounding
`⌊(299R + 587G + 114B + 500) / 1000⌋` of the exact rational weighted sum — the
grayscale value the spec's formula `round(0.299R + 0.587G + 0.114B)` denotes
under exact real arithmetic, to be compared with the float64 `luma`. -/
def lumaExact (r g b : Nat) : Nat :=
  (299 * r + 587 * g + 114 * b + 500) / 1000

/-- The histogram `{0 ↦ 1, 2 ↦ 2, 4 ↦ 1}` (a 4-pixel image with grays
0, 2, 2, 4): a witness separating the float64 variance comparison from its
exact-arithmetic reading. -/
def hist4 : Nat → Nat :=
  fun t => if t = 0 then 1 else if t = 2 then 2 else if t = 4 then 1 else 0

/-- Loop invariant of the Otsu scan before candidate `a` is processed:
either no candidate below `a` was scored and the state is still the initial
one, or `threshold` is the first maximizer of the variance float among the
scored candidates below `a` and `maxVar` is its variance float. -/
def OtsuInv (hist : Nat → Nat) (total a : Nat) (maxVar : F64) (threshold : Nat) : Prop :=
  ((∀ t, t < a → ¬ OtsuValid hist total t) ∧ maxVar.val = 0 ∧ threshold = 128) ∨
  (threshold < a ∧ OtsuValid hist total threshold ∧
    maxVar = otsuVarF hist total threshold ∧
    (∀ t, t < a → OtsuValid hist total t →
      (otsuVarF hist total t).val ≤ maxVar.val) ∧
    (∀ t, t < a → OtsuValid hist total t →
      (otsuVarF hist total t).val = maxVar.val → threshold ≤ t))

/-! ### Facts about the float model: bit length -/

theorem bitLenAux_correct : ∀ fuel n, n < 2 ^ fuel →
    (n = 0 → bitLenAux fuel n = 0) ∧
    (0 < n → 2 ^ (bitLenAux fuel n - 1) ≤ n ∧ n < 2 ^ bitLenAux fuel n ∧
      0 < bitLenAux fuel n) := by
  intro fuel
  induction fuel with
  | zero =>
    intro n hn
    have h0 : n = 0 := by
      have : (2:Nat) ^ 0 = 1 := rfl
      omega
    subst h0
    exact ⟨fun _ => rfl, fun h => absurd h (lt_irrefl 0)⟩
  | succ fuel ih =>
    intro n hn
    constructor
    · intro h0
      subst h0
      simp [bitLenAux]
    · intro hpos
      have hne : ¬ n = 0 := by omega
      have hred : bitLenAux (fuel + 1) n = bitLenAux fuel (n / 2) + 1 := by
        simp [bitLenAux, hne]
      have hhalf : n / 2 < 2 ^ fuel := by
        have h2 : (2:Nat) ^ (fuel + 1) = 2 * 2 ^ fuel := by
          rw [pow_succ]
          ring
        omega
      rcases Nat.eq_zero_or_pos (n / 2) with hz | hz
      · have hn1 : n = 1 := by omega
        subst hn1
        rw [hred, (ih 0 (by positivity)).1 (by omega)]
        exact ⟨by norm_num, by norm_num, by norm_num⟩
      · obtain ⟨hl, hu, hp⟩ := (ih (n / 2) hhalf).2 hz
        rw [hred]
        have e1 : 2 ^ (bitLenAux fuel (n / 2) - 1 + 1) = 2 * 2 ^ (bitLenAux fuel (n / 2) - 1) := by
          rw [pow_succ]
          ring
        have e2 : 2 ^ (bitLenAux fuel (n / 2) + 1) = 2 * 2 ^ bitLenAux fuel (n / 2) := by
          rw [pow_succ]
          ring
        have e3 : bitLenAux fuel (n / 2) - 1 + 1 = bitLenAux fuel (n / 2) := by omega
        rw [e3] at e1
        refine ⟨?_, ?_, by omega⟩
        · have : bitLenAux fuel (n / 2) + 1 - 1 = bitLenAux fuel (n / 2) := by omega
          rw [this]
          omega
        · rw [e2]
          omega

theorem bitLen_spec (n : Nat) (hn : n ≠ 0) :
    2 ^ (bitLen n - 1) ≤ n ∧ n < 2 ^ bitLen n ∧ 0 < bitLen n :=
  (bitLenAux_correct n n (Nat.lt_two_pow n)).2 (Nat.pos_of_ne_zero hn)

/-! ### Facts about the float model: values and exponent bookkeeping -/

theorem two_zpow_pos (j : Int) : (0 : ℚ) < 2 ^ j :=
  zpow_pos (by norm_num) j

theorem two_zpow_toNat_mul (j k : Int) (h : k ≤ j) :
    ((2 : ℚ) ^ (j - k).toNat) * (2 : ℚ) ^ k = (2 : ℚ) ^ j := by
  rw [← zpow_natCast (2 : ℚ) (j - k).toNat, Int.toNat_of_nonneg (by omega),
    ← zpow_add₀ (by norm_num : (2:ℚ) ≠ 0)]
  congr 1
  omega

theorem two_zpow_toNat_div (a : Int) :
    ((2 : ℚ) ^ a.toNat) / ((2 : ℚ) ^ (-a).toNat) = (2 : ℚ) ^ a := by
  rcases le_or_lt 0 a with h | h
  · rw [Int.toNat_of_nonpos (by omega : -a ≤ 0), pow_zero, div_one,
      ← zpow_natCast (2 : ℚ) a.toNat, Int.toNat_of_nonneg h]
  · rw [Int.toNat_of_nonpos (le_of_lt h), pow_zero,
      ← zpow_natCast (2 : ℚ) (-a).toNat, Int.toNat_of_nonneg (by omega), one_div,
      ← zpow_neg]
    congr 1
    omega

theorem F64.val_nonneg (x : F64) : 0 ≤ x.val :=
  mul_nonneg (Nat.cast_nonneg _) (le_of_lt (two_zpow_pos _))

theorem F64.val_pos (x : F64) (h : 0 < x.m) : 0 < x.val :=
  mul_pos (by exact_mod_cast h) (two_zpow_pos _)

theorem F64.val_int (n : Nat) : (⟨n, 0⟩ : F64).val = n := by
  unfold F64.val
  simp

theorem F64.val_zero : (⟨0, 0⟩ : F64).val = 0 := by
  unfold F64.val
  simp

theorem F64.val_align (x : F64) (k : Int) (h : k ≤ x.k) :
    ((x.m * 2 ^ (x.k - k).toNat : Nat) : ℚ) * (2 : ℚ) ^ k = x.val := by
  unfold F64.val
  push_cast
  rw [mul_assoc, two_zpow_toNat_mul x.k k h]

/-! ### Facts about the float model: rounding to 53 bits -/

theorem rnd_half (m s : Nat) (hs : 1 ≤ s) :
    (if 2 ^ (s - 1) < m % 2 ^ s then m / 2 ^ s + 1
      else if m % 2 ^ s < 2 ^ (s - 1) then m / 2 ^ s
      else if (m / 2 ^ s) % 2 = 1 then m / 2 ^ s + 1
      else m / 2 ^ s) * 2 ^ s ≤ m + 2 ^ (s - 1) ∧
    m ≤ (if 2 ^ (s - 1) < m % 2 ^ s then m / 2 ^ s + 1
      else if m % 2 ^ s < 2 ^ (s - 1) then m / 2 ^ s
      else if (m / 2 ^ s) % 2 = 1 then m / 2 ^ s + 1
      else m / 2 ^ s) * 2 ^ s + 2 ^ (s - 1) := by
  have hdm : 2 ^ s * (m / 2 ^ s) + m % 2 ^ s = m := Nat.div_add_mod m (2 ^ s)
  have hrlt : m % 2 ^ s < 2 ^ s := Nat.mod_lt _ (by positivity)
  have h2 : 2 ^ s = 2 * 2 ^ (s - 1) := by
    rw [← pow_succ']
    congr 1
    omega
  have e1 : (m / 2 ^ s + 1) * 2 ^ s = m / 2 ^ s * 2 ^ s + 2 ^ s := by ring
  have e2 : 2 ^ s * (m / 2 ^ s) = m / 2 ^ s * 2 ^ s := Nat.mul_comm _ _
  split_ifs with h1 h1' h1'' <;> omega

theorem round53_eq_small (m : Nat) (k : Int) (hL : bitLen m ≤ 53) :
    round53 ⟨m, k⟩ = ⟨m, k⟩ := by
  unfold round53
  rw [if_pos hL]

theorem round53_eq_big (m : Nat) (k : Int) (hL : ¬ bitLen m ≤ 53) :
    round53 ⟨m, k⟩ =
      ⟨if 2 ^ (bitLen m - 53 - 1) < m % 2 ^ (bitLen m - 53) then
          m / 2 ^ (bitLen m - 53) + 1
        else if m % 2 ^ (bitLen m - 53) < 2 ^ (bitLen m - 53 - 1) then
          m / 2 ^ (bitLen m - 53)
        else if (m / 2 ^ (bitLen m - 53)) % 2 = 1 then
          m / 2 ^ (bitLen m - 53) + 1
        else m / 2 ^ (bitLen m - 53),
      k + (bitLen m - 53)⟩ := by
  unfold round53
  rw [if_neg hL]

theorem round53_le (x : F64) : (round53 x).val ≤ x.val * (1 + 1 / 2 ^ 53) := by
  obtain ⟨m, k⟩ := x
  by_cases hL : bitLen m ≤ 53
  · rw [round53_eq_small m k hL]
    nlinarith [F64.val_nonneg ⟨m, k⟩, (by norm_num : (0:ℚ) < 1 / 2 ^ 53)]
  · have hm0 : m ≠ 0 := by
      intro h
      subst h
      exact hL (by decide)
    obtain ⟨hml, hmu, hLpos⟩ := bitLen_spec m hm0
    have hL54 : 54 ≤ bitLen m := by omega
    have hs1 : 1 ≤ bitLen m - 53 := by omega
    rw [round53_eq_big m k hL]
    obtain ⟨hub, _⟩ := rnd_half m (bitLen m - 53) hs1
    have hsplit : (2:ℚ) ^ (k + ((bitLen m : ℤ) - 53)) =
        (2:ℚ) ^ (bitLen m - 53) * (2:ℚ) ^ k := by
      rw [zpow_add₀ (by norm_num : (2:ℚ) ≠ 0), ← zpow_natCast (2:ℚ) (bitLen m - 53),
        show (((bitLen m - 53 : ℕ)) : ℤ) = (bitLen m : ℤ) - 53 from by omega]
      ring
    have key : ∀ Q : Nat, Q * 2 ^ (bitLen m - 53) ≤ m + 2 ^ (bitLen m - 53 - 1) →
        F64.val ⟨Q, k + ((bitLen m : ℤ) - 53)⟩ ≤
          F64.val ⟨m, k⟩ * (1 + 1 / 2 ^ 53) := by
      intro Q hQ
      have hc : (Q : ℚ) * 2 ^ (bitLen m - 53) ≤ (m : ℚ) + 2 ^ (bitLen m - 53 - 1) := by
        have := (Nat.cast_le (α := ℚ)).2 hQ
        push_cast at this
        linarith
      have hm53 : (2 : ℚ) ^ (bitLen m - 53 - 1) ≤ (m : ℚ) / 2 ^ 53 := by
        rw [le_div_iff₀ (by norm_num : (0:ℚ) < 2 ^ 53)]
        have hnat : (2 : ℕ) ^ (bitLen m - 53 - 1) * 2 ^ 53 ≤ m := by
          calc (2:ℕ) ^ (bitLen m - 53 - 1) * 2 ^ 53 = 2 ^ (bitLen m - 53 - 1 + 53) :=
                (pow_add 2 _ _).symm
            _ = 2 ^ (bitLen m - 1) := by
                congr 1
                omega
            _ ≤ m := hml
        exact_mod_cast hnat
      have h2k : (0 : ℚ) < (2 : ℚ) ^ k := two_zpow_pos k
      have hv1 : F64.val ⟨Q, k + ((bitLen m : ℤ) - 53)⟩ =
          (Q : ℚ) * 2 ^ (bitLen m - 53) * 2 ^ k := by
        show (Q : ℚ) * 2 ^ (k + ((bitLen m : ℤ) - 53)) = _
        rw [hsplit]
        ring
      have hv2 : F64.val ⟨m, k⟩ = (m : ℚ) * 2 ^ k := rfl
      rw [hv1, hv2]
      calc (Q : ℚ) * 2 ^ (bitLen m - 53) * 2 ^ k
          ≤ ((m : ℚ) + 2 ^ (bitLen m - 53 - 1)) * 2 ^ k :=
            mul_le_mul_of_nonneg_right hc (le_of_lt h2k)
        _ ≤ ((m : ℚ) + (m : ℚ) / 2 ^ 53) * 2 ^ k :=
            mul_le_mul_of_nonneg_right (by linarith) (le_of_lt h2k)
        _ = (m : ℚ) * 2 ^ k * (1 + 1 / 2 ^ 53) := by ring
    exact key _ hub

theorem round53_m_pos (x : F64) (h : 0 < x.m) : 0 < (round53 x).m := by
  obtain ⟨m, k⟩ := x
  simp only at h
  by_cases hL : bitLen m ≤ 53
  · rw [round53_eq_small m k hL]
    exact h
  · have hm0 : m ≠ 0 := by omega
    obtain ⟨hml, hmu, hLpos⟩ := bitLen_spec m hm0
    rw [round53_eq_big m k hL]
    have hq : 1 ≤ m / 2 ^ (bitLen m - 53) := by
      rw [Nat.one_le_div_iff (by positivity)]
      calc (2:ℕ) ^ (bitLen m - 53) ≤ 2 ^ (bitLen m - 1) :=
            Nat.pow_le_pow_right (by norm_num) (by omega)
        _ ≤ m := hml
    have aux : ∀ q a b : Nat, 1 ≤ q →
        0 < (if a < b then q + 1 else if b < a then q else if q % 2 = 1 then q + 1 else q) := by
      intro q a b hq1
      split_ifs <;> omega
    exact aux (m / 2 ^ (bitLen m - 53)) (2 ^ (bitLen m - 53 - 1))
      (m % 2 ^ (bitLen m - 53)) hq

/-! ### Facts about the float model: products, sums, comparison, rounding -/

theorem mul_arg_val (x y : F64) :
    F64.val ⟨x.m * y.m, x.k + y.k⟩ = x.val * y.val := by
  unfold F64.val
  push_cast
  rw [zpow_add₀ (by norm_num : (2:ℚ) ≠ 0)]
  ring

theorem F64.mul_le (x y : F64) :
    (x.mul y).val ≤ x.val * y.val * (1 + 1 / 2 ^ 53) := by
  unfold F64.mul
  have h := round53_le ⟨x.m * y.m, x.k + y.k⟩
  rwa [mul_arg_val] at h

theorem F64.mul_m_pos (x y : F64) (hx : 0 < x.m) (hy : 0 < y.m) : 0 < (x.mul y).m := by
  unfold F64.mul
  exact round53_m_pos _ (Nat.mul_pos hx hy)

theorem add_arg_val (x y : F64) :
    F64.val ⟨x.m * 2 ^ (x.k - min x.k y.k).toNat +
      y.m * 2 ^ (y.k - min x.k y.k).toNat, min x.k y.k⟩ = x.val + y.val := by
  have hx := F64.val_align x (min x.k y.k) (min_le_left _ _)
  have hy := F64.val_align y (min x.k y.k) (min_le_right _ _)
  push_cast at hx hy
  have hv : F64.val ⟨x.m * 2 ^ (x.k - min x.k y.k).toNat +
      y.m * 2 ^ (y.k - min x.k y.k).toNat, min x.k y.k⟩ =
      ((x.m * 2 ^ (x.k - min x.k y.k).toNat +
        y.m * 2 ^ (y.k - min x.k y.k).toNat : ℕ) : ℚ) * (2:ℚ) ^ (min x.k y.k) := rfl
  rw [hv]
  push_cast
  linear_combination hx + hy

theorem F64.add_le (x y : F64) :
    (x.add y).val ≤ (x.val + y.val) * (1 + 1 / 2 ^ 53) := by
  unfold F64.add
  have h := round53_le ⟨x.m * 2 ^ (x.k - min x.k y.k).toNat +
    y.m * 2 ^ (y.k - min x.k y.k).toNat, min x.k y.k⟩
  rwa [add_arg_val] at h

theorem F64.blt_iff (x y : F64) : x.blt y = true ↔ x.val < y.val := by
  unfold F64.blt
  rw [decide_eq_true_eq]
  have hx := F64.val_align x (min x.k y.k) (min_le_left _ _)
  have hy := F64.val_align y (min x.k y.k) (min_le_right _ _)
  rw [← hx, ← hy, mul_lt_mul_right (two_zpow_pos _)]
  exact Nat.cast_lt.symm

theorem F64.subAbs_m_pos (x y : F64) (h : y.val < x.val) : 0 < (x.subAbs y).m := by
  have hx := F64.val_align x (min x.k y.k) (min_le_left _ _)
  have hy := F64.val_align y (min x.k y.k) (min_le_right _ _)
  have hlt : y.m * 2 ^ (y.k - min x.k y.k).toNat <
      x.m * 2 ^ (x.k - min x.k y.k).toNat := by
    by_contra hle
    push_neg at hle
    have hxy : x.val ≤ y.val := by
      rw [← hx, ← hy]
      exact mul_le_mul_of_nonneg_right (by exact_mod_cast hle)
        (le_of_lt (two_zpow_pos _))
    exact absurd h (not_lt.2 hxy)
  unfold F64.subAbs
  apply round53_m_pos
  show 0 < (if _ ≤ _ then _ else _)
  rw [if_pos (le_of_lt hlt)]
  omega

theorem F64.roundHalfUp_le (x : F64) (c : Nat) (h : x.val < (c : ℚ) + 1 / 2) :
    x.roundHalfUp ≤ c := by
  unfold F64.roundHalfUp
  split_ifs with hk
  · have hvq : ((x.m * 2 ^ x.k.toNat : ℕ) : ℚ) < ((c + 1 : ℕ) : ℚ) := by
      push_cast
      calc (x.m : ℚ) * 2 ^ x.k.toNat = x.val := by
            unfold F64.val
            rw [← zpow_natCast (2:ℚ) x.k.toNat, Int.toNat_of_nonneg hk]
        _ < (c : ℚ) + 1 / 2 := h
        _ ≤ (c : ℚ) + 1 := by linarith
    have hnat : x.m * 2 ^ x.k.toNat < c + 1 := by exact_mod_cast hvq
    omega
  · push_neg at hk
    have hn1 : 1 ≤ (-x.k).toNat := by omega
    have hval2 : x.val = (x.m : ℚ) / 2 ^ (-x.k).toNat := by
      unfold F64.val
      rw [show (2:ℚ) ^ x.k = ((2:ℚ) ^ (-x.k).toNat)⁻¹ from by
          rw [← zpow_natCast (2:ℚ) (-x.k).toNat, Int.toNat_of_nonneg (by omega),
            ← zpow_neg]
          congr 1
          omega,
        div_eq_mul_inv]
    have h2 : (x.m : ℚ) / 2 ^ (-x.k).toNat < (c : ℚ) + 1 / 2 := by
      rw [← hval2]
      exact h
    rw [div_lt_iff₀ (by positivity)] at h2
    have h3 : ((c : ℚ) + 1 / 2) * 2 ^ (-x.k).toNat =
        (c : ℚ) * 2 ^ (-x.k).toNat + 2 ^ ((-x.k).toNat - 1) := by
      have hp : (2 : ℚ) ^ (-x.k).toNat = 2 * 2 ^ ((-x.k).toNat - 1) := by
        rw [← pow_succ']
        congr 1
        omega
      rw [hp]
      ring
    rw [h3] at h2
    have hm : x.m < c * 2 ^ (-x.k).toNat + 2 ^ ((-x.k).toNat - 1) := by
      exact_mod_cast h2
    rw [show (-x.k - 1).toNat = (-x.k).toNat - 1 from by omega]
    have h2n : (2:ℕ) ^ (-x.k).toNat = 2 * 2 ^ ((-x.k).toNat - 1) := by
      rw [← pow_succ']
      congr 1
      omega
    have hdiv := (Nat.div_lt_iff_lt_mul (by positivity : 0 < 2 ^ (-x.k).toNat)).2
      (show x.m + 2 ^ ((-x.k).toNat - 1) < (c + 1) * 2 ^ (-x.k).toNat from by
        have e : (c + 1) * 2 ^ (-x.k).toNat = c * 2 ^ (-x.k).toNat + 2 ^ (-x.k).toNat := by
          ring
        omega)
    omega

/-! ### Facts about the float model: correctly rounded division -/

theorem divExp_spec (nm dn : Nat) (hnm : nm ≠ 0) (hdn : dn ≠ 0) :
    (2:ℚ) ^ divExp nm dn ≤ (nm : ℚ) / dn ∧
      (nm : ℚ) / dn < (2:ℚ) ^ (divExp nm dn + 1) := by
  have hdnQ : (0:ℚ) < (dn : ℚ) := by
    exact_mod_cast Nat.pos_of_ne_zero hdn
  have hnmQ : (0:ℚ) ≤ (nm : ℚ) := Nat.cast_nonneg nm
  have hA1 : (2:ℚ) ^ ((bitLen nm : Int) - 1) ≤ (nm : ℚ) := by
    calc (2:ℚ) ^ ((bitLen nm : Int) - 1) = ((2 ^ (bitLen nm - 1) : ℕ) : ℚ) := by
          push_cast
          rw [← zpow_natCast (2:ℚ) (bitLen nm - 1)]
          congr 1
          have := (bitLen_spec nm hnm).2.2
          omega
      _ ≤ (nm : ℚ) := by exact_mod_cast (bitLen_spec nm hnm).1
  have hA2 : (nm : ℚ) < (2:ℚ) ^ (bitLen nm : Int) := by
    calc (nm : ℚ) < ((2 ^ bitLen nm : ℕ) : ℚ) := by exact_mod_cast (bitLen_spec nm hnm).2.1
      _ = (2:ℚ) ^ (bitLen nm : Int) := by
          push_cast
          rw [← zpow_natCast (2:ℚ) (bitLen nm)]
  have hB1 : (2:ℚ) ^ ((bitLen dn : Int) - 1) ≤ (dn : ℚ) := by
    calc (2:ℚ) ^ ((bitLen dn : Int) - 1) = ((2 ^ (bitLen dn - 1) : ℕ) : ℚ) := by
          push_cast
          rw [← zpow_natCast (2:ℚ) (bitLen dn - 1)]
          congr 1
          have := (bitLen_spec dn hdn).2.2
          omega
      _ ≤ (dn : ℚ) := by exact_mod_cast (bitLen_spec dn hdn).1
  have hB2 : (dn : ℚ) < (2:ℚ) ^ (bitLen dn : Int) := by
    calc (dn : ℚ) < ((2 ^ bitLen dn : ℕ) : ℚ) := by exact_mod_cast (bitLen_spec dn hdn).2.1
      _ = (2:ℚ) ^ (bitLen dn : Int) := by
          push_cast
          rw [← zpow_natCast (2:ℚ) (bitLen dn)]
  have hlow : (2:ℚ) ^ ((bitLen nm : Int) - (bitLen dn : Int) - 1) ≤ (nm : ℚ) / dn := by
    have hz : (2:ℚ) ^ ((bitLen nm : Int) - (bitLen dn : Int) - 1) =
        (2:ℚ) ^ ((bitLen nm : Int) - 1) / (2:ℚ) ^ (bitLen dn : Int) := by
      rw [← zpow_sub₀ (by norm_num : (2:ℚ) ≠ 0)]
      congr 1
      ring
    rw [hz, div_le_div_iff (two_zpow_pos _) hdnQ]
    exact mul_le_mul hA1 (le_of_lt hB2) (le_of_lt hdnQ) hnmQ
  have hhigh : (nm : ℚ) / dn < (2:ℚ) ^ ((bitLen nm : Int) - (bitLen dn : Int) + 1) := by
    have hz : (2:ℚ) ^ ((bitLen nm : Int) - (bitLen dn : Int) + 1) =
        (2:ℚ) ^ (bitLen nm : Int) / (2:ℚ) ^ ((bitLen dn : Int) - 1) := by
      rw [← zpow_sub₀ (by norm_num : (2:ℚ) ≠ 0)]
      congr 1
      ring
    rw [hz, div_lt_div_iff hdnQ (two_zpow_pos _)]
    exact lt_of_le_of_lt (mul_le_mul_of_nonneg_left hB1 hnmQ)
      (mul_lt_mul_of_pos_right hA2 hdnQ)
  have hTest : (dn * 2 ^ ((bitLen nm : Int) - (bitLen dn : Int)).toNat ≤
      nm * 2 ^ (-((bitLen nm : Int) - (bitLen dn : Int))).toNat) ↔
      ((2:ℚ) ^ ((bitLen nm : Int) - (bitLen dn : Int)) ≤ (nm : ℚ) / dn) := by
    rw [← two_zpow_toNat_div ((bitLen nm : Int) - (bitLen dn : Int)),
      div_le_div_iff (by positivity) hdnQ]
    constructor
    · intro h
      calc (2:ℚ) ^ ((bitLen nm : Int) - (bitLen dn : Int)).toNat * dn
          = ((dn * 2 ^ ((bitLen nm : Int) - (bitLen dn : Int)).toNat : ℕ) : ℚ) := by
            push_cast
            ring
        _ ≤ ((nm * 2 ^ (-((bitLen nm : Int) - (bitLen dn : Int))).toNat : ℕ) : ℚ) := by
            exact_mod_cast h
        _ = (nm : ℚ) * 2 ^ (-((bitLen nm : Int) - (bitLen dn : Int))).toNat := by
            push_cast
            ring
    · intro h
      have hc : ((dn * 2 ^ ((bitLen nm : Int) - (bitLen dn : Int)).toNat : ℕ) : ℚ) ≤
          ((nm * 2 ^ (-((bitLen nm : Int) - (bitLen dn : Int))).toNat : ℕ) : ℚ) := by
        push_cast
        calc (dn : ℚ) * 2 ^ ((bitLen nm : Int) - (bitLen dn : Int)).toNat
            = 2 ^ ((bitLen nm : Int) - (bitLen dn : Int)).toNat * dn := by ring
          _ ≤ (nm : ℚ) * 2 ^ (-((bitLen nm : Int) - (bitLen dn : Int))).toNat := h
      exact_mod_cast hc
  unfold divExp
  split_ifs with hc
  · exact ⟨hTest.1 hc, hhigh⟩
  · refine ⟨hlow, ?_⟩
    rw [show (bitLen nm : Int) - (bitLen dn : Int) - 1 + 1 =
      (bitLen nm : Int) - (bitLen dn : Int) from by ring]
    exact lt_of_not_le fun hge => hc (hTest.2 hge)

theorem divRound_err (N Dd : Nat) (hDd : 0 < Dd) :
    2 * (divRound N Dd * Dd) ≤ 2 * N + Dd ∧ 2 * N ≤ 2 * (divRound N Dd * Dd) + Dd := by
  have hdm : Dd * (N / Dd) + N % Dd = N := Nat.div_add_mod N Dd
  have hmlt : N % Dd < Dd := Nat.mod_lt _ hDd
  have e1 : (N / Dd + 1) * Dd = N / Dd * Dd + Dd := by ring
  have e2 : Dd * (N / Dd) = N / Dd * Dd := Nat.mul_comm _ _
  unfold divRound
  split_ifs with h1 h2 h3 <;> omega

theorem divF_le (nm dn : Nat) (hdn : 0 < dn) :
    (divF nm dn).val ≤ ((nm : ℚ) / dn) * (1 + 1 / 2 ^ 53) := by
  by_cases hnm : nm = 0
  · subst hnm
    show (⟨0, 0⟩ : F64).val ≤ _
    rw [F64.val_zero]
    positivity
  · obtain ⟨hlo, hhi⟩ := divExp_spec nm dn hnm (by omega)
    have hdf : divF nm dn = ⟨divRound (nm * 2 ^ (52 - divExp nm dn).toNat)
        (dn * 2 ^ (divExp nm dn - 52).toNat), divExp nm dn - 52⟩ := by
      unfold divF
      rw [if_neg hnm]
    rw [hdf]
    set e := divExp nm dn with he
    set N := nm * 2 ^ ((52 : Int) - e).toNat with hN
    set Dd := dn * 2 ^ ((e : Int) - 52).toNat with hDd
    have hDdpos : 0 < Dd := Nat.mul_pos hdn (by positivity)
    have hDdQ : (0:ℚ) < (Dd : ℚ) := by exact_mod_cast hDdpos
    have hq : (N : ℚ) / Dd = ((nm : ℚ) / dn) * (2:ℚ) ^ ((52 : Int) - e) := by
      have h1 : (-(52 - e) : Int).toNat = (e - 52).toNat := by
        congr 1
        ring
      rw [hN, hDd]
      push_cast
      rw [← two_zpow_toNat_div (52 - e), h1, div_mul_div_comm]
    obtain ⟨hu1, _⟩ := divRound_err N Dd hDdpos
    have hup : (divRound N Dd : ℚ) ≤ (N : ℚ) / Dd + 1 / 2 := by
      have hc : ((2 * (divRound N Dd * Dd) : ℕ) : ℚ) ≤ ((2 * N + Dd : ℕ) : ℚ) := by
        exact_mod_cast hu1
      push_cast at hc
      rw [← mul_le_mul_right hDdQ, add_mul, div_mul_cancel₀ _ (ne_of_gt hDdQ)]
      linarith
    have hvale : F64.val ⟨divRound N Dd, e - 52⟩ =
        (divRound N Dd : ℚ) * (2:ℚ) ^ ((e : Int) - 52) := rfl
    rw [hvale]
    have hsplit2 : (2:ℚ) ^ ((52:Int) - e) * (2:ℚ) ^ ((e : Int) - 52) = 1 := by
      rw [← zpow_add₀ (by norm_num : (2:ℚ) ≠ 0),
        show (52:Int) - e + (e - 52) = 0 from by ring, zpow_zero]
    have hq2 : (N:ℚ) / Dd * (2:ℚ) ^ ((e : Int) - 52) = (nm:ℚ) / dn := by
      rw [hq, mul_assoc, hsplit2, mul_one]
    have he53 : (2:ℚ) ^ ((e : Int) - 53) ≤ ((nm:ℚ) / dn) * (1 / 2 ^ 53) := by
      have heq : (2:ℚ) ^ ((e:Int) - 53) = (2:ℚ) ^ (e:Int) * (2:ℚ) ^ (-53 : Int) := by
        rw [← zpow_add₀ (by norm_num : (2:ℚ) ≠ 0)]
        congr 1
      have heps : ((2:ℚ) ^ (-53 : Int)) = 1 / 2 ^ 53 := by
        norm_num
      rw [heq, heps]
      exact mul_le_mul_of_nonneg_right hlo (by norm_num)
    calc (divRound N Dd : ℚ) * (2:ℚ) ^ ((e : Int) - 52)
        ≤ ((N:ℚ) / Dd + 1 / 2) * (2:ℚ) ^ ((e : Int) - 52) :=
          mul_le_mul_of_nonneg_right hup (le_of_lt (two_zpow_pos _))
      _ = (N:ℚ) / Dd * (2:ℚ) ^ ((e : Int) - 52) + (2:ℚ) ^ ((e : Int) - 53) := by
          rw [add_mul]
          congr 1
          rw [show ((1:ℚ) / 2) = (2:ℚ) ^ (-1 : Int) from by norm_num,
            ← zpow_add₀ (by norm_num : (2:ℚ) ≠ 0)]
          congr 1
          ring
      _ ≤ (nm:ℚ) / dn + ((nm:ℚ) / dn) * (1 / 2 ^ 53) := by
          rw [hq2]
          exact add_le_add_left he53 _
      _ = ((nm:ℚ) / dn) * (1 + 1 / 2 ^ 53) := by ring

theorem divF_ge (nm dn : Nat) (hdn : 0 < dn) :
    ((nm : ℚ) / dn) * (1 - 1 / 2 ^ 53) ≤ (divF nm dn).val := by
  by_cases hnm : nm = 0
  · subst hnm
    show _ ≤ (⟨0, 0⟩ : F64).val
    rw [F64.val_zero]
    norm_num
  · obtain ⟨hlo, hhi⟩ := divExp_spec nm dn hnm (by omega)
    have hdf : divF nm dn = ⟨divRound (nm * 2 ^ (52 - divExp nm dn).toNat)
        (dn * 2 ^ (divExp nm dn - 52).toNat), divExp nm dn - 52⟩ := by
      unfold divF
      rw [if_neg hnm]
    rw [hdf]
    set e := divExp nm dn with he
    set N := nm * 2 ^ ((52 : Int) - e).toNat with hN
    set Dd := dn * 2 ^ ((e : Int) - 52).toNat with hDd
    have hDdpos : 0 < Dd := Nat.mul_pos hdn (by positivity)
    have hDdQ : (0:ℚ) < (Dd : ℚ) := by exact_mod_cast hDdpos
    have hq : (N : ℚ) / Dd = ((nm : ℚ) / dn) * (2:ℚ) ^ ((52 : Int) - e) := by
      have h1 : (-(52 - e) : Int).toNat = (e - 52).toNat := by
        congr 1
        ring
      rw [hN, hDd]
      push_cast
      rw [← two_zpow_toNat_div (52 - e), h1, div_mul_div_comm]
    obtain ⟨_, hu2⟩ := divRound_err N Dd hDdpos
    have hdown : (N : ℚ) / Dd - 1 / 2 ≤ (divRound N Dd : ℚ) := by
      have hc : ((2 * N : ℕ) : ℚ) ≤ ((2 * (divRound N Dd * Dd) + Dd : ℕ) : ℚ) := by
        exact_mod_cast hu2
      push_cast at hc
      rw [← mul_le_mul_right hDdQ, sub_mul, div_mul_cancel₀ _ (ne_of_gt hDdQ)]
      linarith
    have hvale : F64.val ⟨divRound N Dd, e - 52⟩ =
        (divRound N Dd : ℚ) * (2:ℚ) ^ ((e : Int) - 52) := rfl
    rw [hvale]
    have hsplit2 : (2:ℚ) ^ ((52:Int) - e) * (2:ℚ) ^ ((e : Int) - 52) = 1 := by
      rw [← zpow_add₀ (by norm_num : (2:ℚ) ≠ 0),
        show (52:Int) - e + (e - 52) = 0 from by ring, zpow_zero]
    have hq2 : (N:ℚ) / Dd * (2:ℚ) ^ ((e : Int) - 52) = (nm:ℚ) / dn := by
      rw [hq, mul_assoc, hsplit2, mul_one]
    have he53 : (2:ℚ) ^ ((e : Int) - 53) ≤ ((nm:ℚ) / dn) * (1 / 2 ^ 53) := by
      have heq : (2:ℚ) ^ ((e:Int) - 53) = (2:ℚ) ^ (e:Int) * (2:ℚ) ^ (-53 : Int) := by
        rw [← zpow_add₀ (by norm_num : (2:ℚ) ≠ 0)]
        congr 1
      have heps : ((2:ℚ) ^ (-53 : Int)) = 1 / 2 ^ 53 := by
        norm_num
      rw [heq, heps]
      exact mul_le_mul_of_nonneg_right hlo (by norm_num)
    calc ((nm:ℚ) / dn) * (1 - 1 / 2 ^ 53)
        = (nm:ℚ) / dn - ((nm:ℚ) / dn) * (1 / 2 ^ 53) := by ring
      _ ≤ (nm:ℚ) / dn - (2:ℚ) ^ ((e : Int) - 53) := by linarith
      _ = ((N:ℚ) / Dd - 1 / 2) * (2:ℚ) ^ ((e : Int) - 52) := by
          rw [sub_mul, hq2]
          congr 1
          rw [show ((1:ℚ) / 2) = (2:ℚ) ^ (-1 : Int) from by norm_num,
            ← zpow_add₀ (by norm_num : (2:ℚ) ≠ 0)]
          congr 1
          ring
      _ ≤ (divRound N Dd : ℚ) * (2:ℚ) ^ ((e : Int) - 52) :=
          mul_le_mul_of_nonneg_right hdown (le_of_lt (two_zpow_pos _))

/-! ### The grayscale value is a byte -/

theorem cval299 : c299.val = 5386305154335113 / 2 ^ 54 := by
  show (5386305154335113 : ℚ) * (2:ℚ) ^ (-54 : Int) = _
  norm_num

theorem cval587 : c587.val = 5287225962532962 / 2 ^ 53 := by
  show (5287225962532962 : ℚ) * (2:ℚ) ^ (-53 : Int) = _
  norm_num

theorem cval114 : c114.val = 8214565720323785 / 2 ^ 56 := by
  show (8214565720323785 : ℚ) * (2:ℚ) ^ (-56 : Int) = _
  norm_num

theorem lumaF_le (r g b : Nat) (hr : r ≤ 255) (hg : g ≤ 255) (hb : b ≤ 255) :
    (lumaF r g b).val < 511 / 2 := by
  have hrQ : (r : ℚ) ≤ 255 := by exact_mod_cast hr
  have hgQ : (g : ℚ) ≤ 255 := by exact_mod_cast hg
  have hbQ : (b : ℚ) ≤ 255 := by exact_mod_cast hb
  have h1 : (c299.mul ⟨r, 0⟩).val ≤ (5386305154335113 / 2 ^ 54) * 255 * (1 + 1/2^53) := by
    have hm := F64.mul_le c299 ⟨r, 0⟩
    rw [F64.val_int, cval299] at hm
    calc (c299.mul ⟨r, 0⟩).val ≤ (5386305154335113 / 2 ^ 54 : ℚ) * r * (1 + 1/2^53) := hm
      _ ≤ (5386305154335113 / 2 ^ 54) * 255 * (1 + 1/2^53) :=
          mul_le_mul_of_nonneg_right
            (mul_le_mul_of_nonneg_left hrQ (by norm_num)) (by norm_num)
  have h2 : (c587.mul ⟨g, 0⟩).val ≤ (5287225962532962 / 2 ^ 53) * 255 * (1 + 1/2^53) := by
    have hm := F64.mul_le c587 ⟨g, 0⟩
    rw [F64.val_int, cval587] at hm
    calc (c587.mul ⟨g, 0⟩).val ≤ (5287225962532962 / 2 ^ 53 : ℚ) * g * (1 + 1/2^53) := hm
      _ ≤ (5287225962532962 / 2 ^ 53) * 255 * (1 + 1/2^53) :=
          mul_le_mul_of_nonneg_right
            (mul_le_mul_of_nonneg_left hgQ (by norm_num)) (by norm_num)
  have h3 : (c114.mul ⟨b, 0⟩).val ≤ (8214565720323785 / 2 ^ 56) * 255 * (1 + 1/2^53) := by
    have hm := F64.mul_le c114 ⟨b, 0⟩
    rw [F64.val_int, cval114] at hm
    calc (c114.mul ⟨b, 0⟩).val ≤ (8214565720323785 / 2 ^ 56 : ℚ) * b * (1 + 1/2^53) := hm
      _ ≤ (8214565720323785 / 2 ^ 56) * 255 * (1 + 1/2^53) :=
          mul_le_mul_of_nonneg_right
            (mul_le_mul_of_nonneg_left hbQ (by norm_num)) (by norm_num)
  have h4 := F64.add_le (c299.mul ⟨r, 0⟩) (c587.mul ⟨g, 0⟩)
  have h5 := F64.add_le ((c299.mul ⟨r, 0⟩).add (c587.mul ⟨g, 0⟩)) (c114.mul ⟨b, 0⟩)
  have h12 : ((c299.mul ⟨r, 0⟩).add (c587.mul ⟨g, 0⟩)).val ≤
      ((5386305154335113 / 2 ^ 54) * 255 * (1 + 1/2^53) +
        (5287225962532962 / 2 ^ 53) * 255 * (1 + 1/2^53)) * (1 + 1/2^53) :=
    le_trans h4 (mul_le_mul_of_nonneg_right (add_le_add h1 h2) (by norm_num))
  have hfin : (lumaF r g b).val ≤
      (((5386305154335113 / 2 ^ 54) * 255 * (1 + 1/2^53) +
        (5287225962532962 / 2 ^ 53) * 255 * (1 + 1/2^53)) * (1 + 1/2^53) +
        (8214565720323785 / 2 ^ 56) * 255 * (1 + 1/2^53)) * (1 + 1/2^53) :=
    le_trans h5 (mul_le_mul_of_nonneg_right (add_le_add h12 h3) (by norm_num))
  calc (lumaF r g b).val ≤ _ := hfin
    _ < 511 / 2 := by norm_num

theorem luma_le (r g b : Nat) (hr : r ≤ 255) (hg : g ≤ 255) (hb : b ≤ 255) :
    luma r g b ≤ 255 := by
  unfold luma
  apply F64.roundHalfUp_le
  calc (lumaF r g b).val < 511 / 2 := lumaF_le r g b hr hg hb
    _ ≤ ((255 : Nat) : ℚ) + 1 / 2 := by norm_num

/-! ### Basic facts about the grayscale pass and the histogram -/

theorem buildHist_eq_countP (img : List Pixel) (t : Nat) :
    buildHist img t = img.countP fun p => decide (t = luma p.r p.g p.b) := by
  have key : ∀ (l : List Pixel) (h : Nat → Nat) (u : Nat),
      (l.foldl (fun h p => fun t => if t = luma p.r p.g p.b then h t + 1 else h t) h) u
        = h u + l.countP (fun p => decide (u = luma p.r p.g p.b)) := by
    intro l
    induction l with
    | nil => intro h u; simp
    | cons p l ih =>
      intro h u
      rw [List.foldl_cons, ih, List.countP_cons]
      by_cases hc : u = luma p.r p.g p.b
      · simp [hc]
        omega
      · simp [hc]
  rw [buildHist, key]
  exact Nat.zero_add _

theorem countP_congr_mem {α : Type} {p q : α → Bool} :
    ∀ {l : List α}, (∀ a ∈ l, p a = q a) → l.countP p = l.countP q := by
  intro l
  induction l with
  | nil => intro _; rfl
  | cons x l ih =>
    intro h
    rw [List.countP_cons, List.countP_cons, ih fun a ha => h a (List.mem_cons_of_mem x ha),
      h x (List.mem_cons_self x l)]

theorem map_eq_self_of_mem {α : Type} {f : α → α} :
    ∀ {l : List α}, (∀ a ∈ l, f a = a) → l.map f = l := by
  intro l
  induction l with
  | nil => intro _; rfl
  | cons x l ih =>
    intro h
    rw [List.map_cons, h x (List.mem_cons_self x l),
      ih fun a ha => h a (List.mem_cons_of_mem x ha)]

theorem sum_countP_luma (l : List Pixel) (hwf : ∀ p ∈ l, luma p.r p.g p.b < 256) :
    ∑ t ∈ Finset.range 256, l.countP (fun p => decide (t = luma p.r p.g p.b)) = l.length := by
  induction l with
  | nil => simp
  | cons p l ih =>
    have hmem : luma p.r p.g p.b ∈ Finset.range 256 :=
      Finset.mem_range.2 (hwf p (List.mem_cons_self p l))
    have hl : ∀ q ∈ l, luma q.r q.g q.b < 256 :=
      fun q hq => hwf q (List.mem_cons_of_mem p hq)
    calc ∑ t ∈ Finset.range 256, (p :: l).countP (fun q => decide (t = luma q.r q.g q.b))
        = ∑ t ∈ Finset.range 256,
            (l.countP (fun q => decide (t = luma q.r q.g q.b)) +
              if t = luma p.r p.g p.b then 1 else 0) := by
          refine Finset.sum_congr rfl fun t _ => ?_
          rw [List.countP_cons]
          by_cases hc : t = luma p.r p.g p.b <;> simp [hc]
      _ = l.length + 1 := by
          rw [Finset.sum_add_distrib, ih hl, Finset.sum_ite_eq' (Finset.range 256)]
          simp [hmem]
      _ = (p :: l).length := by simp

theorem wAcc_buildHist (img : List Pixel) (hwf : ∀ p ∈ img, luma p.r p.g p.b < 256) :
    wAcc (buildHist img) 256 = img.length := by
  unfold wAcc
  calc ∑ i ∈ Finset.range 256, buildHist img i
      = ∑ i ∈ Finset.range 256, img.countP (fun p => decide (i = luma p.r p.g p.b)) :=
        Finset.sum_congr rfl fun i _ => buildHist_eq_countP img i
    _ = img.length := sum_countP_luma img hwf

/-! ### The Otsu scan: invariant machinery -/

theorem wAcc_succ (hist : Nat → Nat) (a : Nat) :
    wAcc hist (a + 1) = wAcc hist a + hist a :=
  Finset.sum_range_succ hist a

theorem sAcc_succ (hist : Nat → Nat) (a : Nat) :
    sAcc hist (a + 1) = sAcc hist a + a * hist a :=
  Finset.sum_range_succ _ a

theorem wAcc_mono (hist : Nat → Nat) {a b : Nat} (h : a ≤ b) :
    wAcc hist a ≤ wAcc hist b :=
  Finset.sum_le_sum_of_subset (Finset.range_subset.2 h)

theorem mean_gap (t : ℚ) (ht0 : 0 ≤ t) (ht255 : t ≤ 255) :
    t * (1 + 1/2^53) < (t + 1) * (1 - 1/2^53) := by nlinarith

theorem otsuVarF_pos (hist : Nat → Nat) (total t : Nat) (htotal : total = wAcc hist 256)
    (ht : t < 256) (hv : OtsuValid hist total t) : 0 < (otsuVarF hist total t).val := by
  obtain ⟨hposW, hltW⟩ := hv
  have h1 : t + 1 ≤ 256 := ht
  have hsplitS :
      sAcc hist (t + 1) + ∑ i ∈ Finset.Ico (t + 1) 256, i * hist i = sumAll hist :=
    Finset.sum_range_add_sum_Ico _ h1
  have hsle : sAcc hist (t + 1) ≤ t * wAcc hist (t + 1) := by
    calc sAcc hist (t + 1) = ∑ i ∈ Finset.range (t + 1), i * hist i := rfl
      _ ≤ ∑ i ∈ Finset.range (t + 1), t * hist i :=
          Finset.sum_le_sum fun i hi =>
            Nat.mul_le_mul_right _ (Nat.lt_succ_iff.1 (Finset.mem_range.1 hi))
      _ = t * wAcc hist (t + 1) := by rw [wAcc, Finset.mul_sum]
  have hsplitW : wAcc hist (t + 1) + ∑ i ∈ Finset.Ico (t + 1) 256, hist i = total := by
    rw [htotal]
    exact Finset.sum_range_add_sum_Ico hist h1
  have hrest : (t + 1) * (total - wAcc hist (t + 1)) ≤
      ∑ i ∈ Finset.Ico (t + 1) 256, i * hist i := by
    have hb : ∑ i ∈ Finset.Ico (t + 1) 256, (t + 1) * hist i ≤
        ∑ i ∈ Finset.Ico (t + 1) 256, i * hist i :=
      Finset.sum_le_sum fun i hi => Nat.mul_le_mul_right _ (Finset.mem_Ico.1 hi).1
    have hc : (t + 1) * (total - wAcc hist (t + 1)) =
        ∑ i ∈ Finset.Ico (t + 1) 256, (t + 1) * hist i := by
      rw [← Finset.mul_sum]
      congr 1
      omega
    rw [hc]
    exact hb
  have hnat : (t + 1) * (total - wAcc hist (t + 1)) ≤ sumAll hist - sAcc hist (t + 1) := by
    omega
  have hwQ : (0:ℚ) < (wAcc hist (t + 1) : ℚ) := by exact_mod_cast hposW
  have hFnat : 0 < total - wAcc hist (t + 1) := by omega
  have hFQ : (0:ℚ) < ((total - wAcc hist (t + 1) : ℕ) : ℚ) := by exact_mod_cast hFnat
  have hmB : (divF (sAcc hist (t + 1)) (wAcc hist (t + 1))).val ≤
      (t : ℚ) * (1 + 1/2^53) := by
    calc (divF (sAcc hist (t + 1)) (wAcc hist (t + 1))).val
        ≤ ((sAcc hist (t + 1) : ℚ) / (wAcc hist (t + 1) : ℚ)) * (1 + 1/2^53) :=
          divF_le _ _ hposW
      _ ≤ (t : ℚ) * (1 + 1/2^53) := by
          apply mul_le_mul_of_nonneg_right _ (by norm_num)
          rw [div_le_iff₀ hwQ]
          exact_mod_cast hsle
  have hmF : ((t : ℚ) + 1) * (1 - 1/2^53) ≤
      (divF (sumAll hist - sAcc hist (t + 1)) (total - wAcc hist (t + 1))).val := by
    calc ((t : ℚ) + 1) * (1 - 1/2^53)
        ≤ (((sumAll hist - sAcc hist (t + 1) : ℕ) : ℚ) /
            ((total - wAcc hist (t + 1) : ℕ) : ℚ)) * (1 - 1/2^53) := by
          apply mul_le_mul_of_nonneg_right _ (by norm_num)
          rw [le_div_iff₀ hFQ]
          calc ((t : ℚ) + 1) * ((total - wAcc hist (t + 1) : ℕ) : ℚ)
              = (((t + 1) * (total - wAcc hist (t + 1)) : ℕ) : ℚ) := by
                push_cast
                ring
            _ ≤ (((sumAll hist - sAcc hist (t + 1)) : ℕ) : ℚ) := by exact_mod_cast hnat
      _ ≤ _ := divF_ge _ _ hFnat
  have htQ : (t : ℚ) ≤ 255 := by exact_mod_cast Nat.lt_succ_iff.1 ht
  have ht0 : (0 : ℚ) ≤ (t : ℚ) := Nat.cast_nonneg t
  have hgap : (t : ℚ) * (1 + 1/2^53) < ((t : ℚ) + 1) * (1 - 1/2^53) :=
    mean_gap (t : ℚ) ht0 htQ
  have hltv : (divF (sAcc hist (t + 1)) (wAcc hist (t + 1))).val <
      (divF (sumAll hist - sAcc hist (t + 1)) (total - wAcc hist (t + 1))).val :=
    lt_of_le_of_lt hmB (lt_of_lt_of_le hgap hmF)
  apply F64.val_pos
  apply F64.mul_m_pos
  · apply F64.mul_m_pos
    · exact hposW
    · exact hFnat
  · apply F64.mul_m_pos <;> exact F64.subAbs_m_pos _ _ hltv

theorem OtsuInv_init (hist : Nat → Nat) (total : Nat) :
    OtsuInv hist total 0 ⟨0, 0⟩ 128 :=
  Or.inl ⟨fun t ht => absurd ht (Nat.not_lt_zero t), F64.val_zero, rfl⟩

theorem OtsuInv_extend (hist : Nat → Nat) (total a : Nat) (maxVar : F64) (thr : Nat)
    (hnv : ¬ OtsuValid hist total a) (hinv : OtsuInv hist total a maxVar thr) :
    OtsuInv hist total (a + 1) maxVar thr := by
  rcases hinv with ⟨h1, h2, h3⟩ | ⟨h1, h2, h3, h4, h5⟩
  · refine Or.inl ⟨fun t ht => ?_, h2, h3⟩
    rcases Nat.lt_succ_iff_lt_or_eq.1 ht with h | h
    · exact h1 t h
    · subst h; exact hnv
  · refine Or.inr ⟨Nat.lt_succ_of_lt h1, h2, h3, fun t ht hv => ?_, fun t ht hv heq => ?_⟩
    · rcases Nat.lt_succ_iff_lt_or_eq.1 ht with h | h
      · exact h4 t h hv
      · subst h; exact absurd hv hnv
    · rcases Nat.lt_succ_iff_lt_or_eq.1 ht with h | h
      · exact h5 t h hv heq
      · subst h; exact absurd hv hnv

theorem OtsuInv_stop (hist : Nat → Nat) (total a : Nat) (maxVar : F64) (thr : Nat)
    (ha : a ≤ 256) (heq : wAcc hist (a + 1) = total)
    (hinv : OtsuInv hist total a maxVar thr) : OtsuInv hist total 256 maxVar thr := by
  have hnv : ∀ t, a ≤ t → ¬ OtsuValid hist total t := by
    intro t hat hv
    have hmono : wAcc hist (a + 1) ≤ wAcc hist (t + 1) :=
      wAcc_mono hist (Nat.succ_le_succ hat)
    have := hv.2
    omega
  rcases hinv with ⟨h1, h2, h3⟩ | ⟨h1, h2, h3, h4, h5⟩
  · refine Or.inl ⟨fun t _ => ?_, h2, h3⟩
    by_cases h : t < a
    · exact h1 t h
    · exact hnv t (le_of_not_lt h)
  · refine Or.inr ⟨by omega, h2, h3, fun t _ hv => ?_, fun t _ hv heq' => ?_⟩
    · by_cases h : t < a
      · exact h4 t h hv
      · exact absurd hv (hnv t (le_of_not_lt h))
    · by_cases h : t < a
      · exact h5 t h hv heq'
      · exact absurd hv (hnv t (le_of_not_lt h))

theorem OtsuInv_update (hist : Nat → Nat) (total a : Nat) (maxVar : F64) (thr : Nat)
    (hv : OtsuValid hist total a)
    (hlt : maxVar.val < (otsuVarF hist total a).val)
    (hinv : OtsuInv hist total a maxVar thr) :
    OtsuInv hist total (a + 1) (otsuVarF hist total a) a := by
  refine Or.inr ⟨Nat.lt_succ_self a, hv, rfl, fun t ht hvt => ?_, fun t ht hvt heq => ?_⟩
  · rcases Nat.lt_succ_iff_lt_or_eq.1 ht with h | h
    · rcases hinv with ⟨h1, _, _⟩ | ⟨_, _, _, h4, _⟩
      · exact absurd hvt (h1 t h)
      · exact le_of_lt (lt_of_le_of_lt (h4 t h hvt) hlt)
    · subst h; exact le_refl _
  · rcases Nat.lt_succ_iff_lt_or_eq.1 ht with h | h
    · rcases hinv with ⟨h1, _, _⟩ | ⟨_, _, _, h4, _⟩
      · exact absurd hvt (h1 t h)
      · exact absurd heq (ne_of_lt (lt_of_le_of_lt (h4 t h hvt) hlt))
    · subst h; exact le_refl t

theorem OtsuInv_keep (hist : Nat → Nat) (total a : Nat) (maxVar : F64) (thr : Nat)
    (hv : OtsuValid hist total a) (hvpos : 0 < (otsuVarF hist total a).val)
    (hle : (otsuVarF hist total a).val ≤ maxVar.val)
    (hinv : OtsuInv hist total a maxVar thr) :
    OtsuInv hist total (a + 1) maxVar thr := by
  rcases hinv with ⟨h1, h2, h3⟩ | ⟨h1, h2, h3, h4, h5⟩
  · exfalso
    rw [h2] at hle
    exact absurd (lt_of_lt_of_le hvpos hle) (lt_irrefl 0)
  · refine Or.inr ⟨Nat.lt_succ_of_lt h1, h2, h3, fun t ht hvt => ?_, fun t ht hvt heq => ?_⟩
    · rcases Nat.lt_succ_iff_lt_or_eq.1 ht with h | h
      · exact h4 t h hvt
      · subst h; exact hle
    · rcases Nat.lt_succ_iff_lt_or_eq.1 ht with h | h
      · exact h5 t h hvt heq
      · subst h; exact le_of_lt h1

theorem otsuGo_inv (hist : Nat → Nat) (total : Nat) (htotal : total = wAcc hist 256) :
    ∀ (k : Nat), ∀ (a sumB wB : Nat) (maxVar : F64) (threshold : Nat),
      a + k = 256 → wB = wAcc hist a → sumB = sAcc hist a →
      OtsuInv hist total a maxVar threshold →
      ∃ mv : F64, OtsuInv hist total 256 mv
        (otsuGo hist total (sumAll hist) (List.range' a k) sumB wB maxVar threshold) := by
  intro k
  induction k with
  | zero =>
    intro a sumB wB maxVar threshold hak hw hs hinv
    have ha : a = 256 := by omega
    subst ha
    exact ⟨maxVar, hinv⟩
  | succ k ih =>
    intro a sumB wB maxVar threshold hak hw hs hinv
    have ha : a < 256 := by omega
    have hw' : wB + hist a = wAcc hist (a + 1) := by rw [hw, wAcc_succ]
    have hs' : sumB + a * hist a = sAcc hist (a + 1) := by rw [hs, sAcc_succ]
    rw [List.range'_succ]
    simp only [otsuGo]
    rw [hw', hs']
    split_ifs with h0 hF hm
    · -- skip: empty background class
      have hha : hist a = 0 := by
        have := wAcc_succ hist a
        omega
      have hsk : sumB = sAcc hist (a + 1) := by
        rw [hs, sAcc_succ, hha, Nat.mul_zero, Nat.add_zero]
      exact ih (a + 1) sumB (wAcc hist (a + 1)) maxVar threshold (by omega) rfl hsk
        (OtsuInv_extend hist total a maxVar threshold
          (fun hv => by have := hv.1; omega) hinv)
    · -- break: empty foreground class
      have heq : wAcc hist (a + 1) = total := by omega
      exact ⟨maxVar, OtsuInv_stop hist total a maxVar threshold (by omega) heq hinv⟩
    · -- scored candidate, strictly larger variance: update the maximum
      have hvalid : OtsuValid hist total a := by
        constructor
        · omega
        · have hle : wAcc hist (a + 1) ≤ total := by
            rw [htotal]
            exact wAcc_mono hist (by omega)
          omega
      exact ih (a + 1) (sAcc hist (a + 1)) (wAcc hist (a + 1))
        (otsuVarF hist total a) a (by omega) rfl rfl
        (OtsuInv_update hist total a maxVar threshold hvalid
          ((F64.blt_iff _ _).1 hm) hinv)
    · -- scored candidate, no strict increase: keep the maximum
      have hvalid : OtsuValid hist total a := by
        constructor
        · omega
        · have hle : wAcc hist (a + 1) ≤ total := by
            rw [htotal]
            exact wAcc_mono hist (by omega)
          omega
      exact ih (a + 1) (sAcc hist (a + 1)) (wAcc hist (a + 1)) maxVar threshold
        (by omega) rfl rfl
        (OtsuInv_keep hist total a maxVar threshold hvalid
          (otsuVarF_pos hist total a htotal ha hvalid)
          (le_of_not_lt fun hc => hm ((F64.blt_iff _ _).2 hc)) hinv)

theorem otsu_post (hist : Nat → Nat) (total : Nat) (htotal : total = wAcc hist 256) :
    ∃ mv : F64, OtsuInv hist total 256 mv (otsu hist total) := by
  have h := otsuGo_inv hist total htotal 256 0 0 0 ⟨0, 0⟩ 128 (by omega)
    (by simp [wAcc]) (by simp [sAcc]) (OtsuInv_init hist total)
  simpa [otsu, List.range_eq_range'] using h

theorem otsu_fallback (hist : Nat → Nat) (total : Nat) (htotal : total = wAcc hist 256)
    (hnv : ∀ t, t < 256 → ¬ OtsuValid hist total t) : otsu hist total = 128 := by
  obtain ⟨mv, hinv⟩ := otsu_post hist total htotal
  rcases hinv with ⟨_, _, h3⟩ | ⟨h1, h2, _⟩
  · exact h3
  · exact absurd h2 (hnv _ h1)

theorem otsu_argmax (hist : Nat → Nat) (total : Nat) (htotal : total = wAcc hist 256)
    (hex : ∃ t, t < 256 ∧ OtsuValid hist total t) :
    otsu hist total < 256 ∧ OtsuValid hist total (otsu hist total) ∧
      (∀ t, t < 256 → OtsuValid hist total t →
        (otsuVarF hist total t).val ≤ (otsuVarF hist total (otsu hist total)).val) ∧
      (∀ t, t < 256 → OtsuValid hist total t →
        (otsuVarF hist total t).val = (otsuVarF hist total (otsu hist total)).val →
        otsu hist total ≤ t) := by
  obtain ⟨mv, hinv⟩ := otsu_post hist total htotal
  rcases hinv with ⟨h1, _, _⟩ | ⟨h1, h2, h3, h4, h5⟩
  · obtain ⟨t, ht, hv⟩ := hex
    exact absurd hv (h1 t ht)
  · rw [h3] at h4 h5
    exact ⟨h1, h2, h4, h5⟩

theorem otsu_le_255 (hist : Nat → Nat) (total : Nat) : otsu hist total ≤ 255 := by
  have key : ∀ (L : List Nat) (sumB wB : Nat) (maxVar : F64) (threshold : Nat),
      (∀ t ∈ L, t ≤ 255) → threshold ≤ 255 →
      otsuGo hist total (sumAll hist) L sumB wB maxVar threshold ≤ 255 := by
    intro L
    induction L with
    | nil => intro _ _ _ threshold _ h; exact h
    | cons t ts ih =>
      intro sumB wB maxVar threshold hL hthr
      simp only [otsuGo]
      split_ifs with h0 hF hm
      · exact ih _ _ _ _ (fun u hu => hL u (List.mem_cons_of_mem t hu)) hthr
      · exact hthr
      · exact ih _ _ _ _ (fun u hu => hL u (List.mem_cons_of_mem t hu))
          (hL t (List.mem_cons_self t ts))
      · exact ih _ _ _ _ (fun u hu => hL u (List.mem_cons_of_mem t hu)) hthr
  exact key (List.range 256) 0 0 ⟨0, 0⟩ 128
    (fun t ht => by have := List.mem_range.1 ht; omega) (by norm_num)

theorem otsu_lt_255 (hist : Nat → Nat) (total : Nat) (htotal : total = wAcc hist 256) :
    otsu hist total < 255 := by
  obtain ⟨mv, hinv⟩ := otsu_post hist total htotal
  rcases hinv with ⟨_, _, h3⟩ | ⟨h1, h2, _⟩
  · rw [h3]; norm_num
  · by_contra hge
    have h255 : otsu hist total = 255 := by
      have := otsu_le_255 hist total
      omega
    have h2' := h2.2
    rw [h255, htotal] at h2'
    exact absurd h2' (by norm_num)

/-! ### Binarization, inversion and pixel counting -/

theorem countP_not_add {α : Type} (p : α → Bool) :
    ∀ (l : List α), l.countP (fun x => ! p x) + l.countP p = l.length := by
  intro l
  induction l with
  | nil => rfl
  | cons x l ih =>
    rw [List.countP_cons, List.countP_cons, List.length_cons]
    cases hx : p x <;> simp [hx] <;> omega

theorem binarize_binary (threshold : Nat) (img : List Pixel) :
    ∀ q ∈ binarize threshold img, q.g = q.r ∧ q.b = q.r ∧ (q.r = 0 ∨ q.r = 255) := by
  intro q hq
  obtain ⟨p, hp, rfl⟩ := List.mem_map.1 hq
  by_cases h : threshold < p.r <;> simp [h]

theorem whiteCountImg_binarize (threshold : Nat) (img : List Pixel) :
    whiteCountImg (binarize threshold img) = whiteCount threshold img := by
  unfold whiteCountImg binarize whiteCount
  rw [List.countP_map]
  apply countP_congr_mem
  intro p _
  by_cases h : threshold < p.r <;> simp [h, Function.comp]

theorem blackCountImg_binarize (threshold : Nat) (img : List Pixel) :
    blackCountImg (binarize threshold img) + whiteCount threshold img = img.length := by
  have h1 : blackCountImg (binarize threshold img) =
      img.countP (fun p => ! decide (threshold < p.r)) := by
    unfold blackCountImg binarize
    rw [List.countP_map]
    apply countP_congr_mem
    intro p _
    by_cases h : threshold < p.r <;> simp [h, Function.comp]
  rw [h1]
  exact countP_not_add _ img

theorem whiteCountImg_invert (img : List Pixel)
    (hb : ∀ q ∈ img, q.r = 0 ∨ q.r = 255) :
    whiteCountImg (invertImg img) = blackCountImg img := by
  unfold whiteCountImg invertImg blackCountImg
  rw [List.countP_map]
  apply countP_congr_mem
  intro p hp
  rcases hb p hp with h | h <;> simp [h]

theorem blackCountImg_invert (img : List Pixel)
    (hb : ∀ q ∈ img, q.r = 0 ∨ q.r = 255) :
    blackCountImg (invertImg img) = whiteCountImg img := by
  unfold blackCountImg invertImg whiteCountImg
  rw [List.countP_map]
  apply countP_congr_mem
  intro p hp
  rcases hb p hp with h | h <;> simp [h]

theorem binary_partition (l : List Pixel) (hb : ∀ q ∈ l, q.r = 0 ∨ q.r = 255) :
    blackCountImg l + whiteCountImg l = l.length := by
  unfold blackCountImg whiteCountImg
  rw [show (l.countP fun p => decide (p.r = 0)) =
      l.countP (fun p => ! decide (p.r = 255)) from
    countP_congr_mem fun p hp => by rcases hb p hp with h | h <;> simp [h]]
  exact countP_not_add _ l

theorem length_grayImg (img : List Pixel) : (grayImg img).length = img.length := by
  simp [grayImg]

theorem pipelineCore_eq (img : List Pixel) :
    pipelineCore img =
      if whiteCount (chosenThreshold img) (grayImg img) <
          img.length - whiteCount (chosenThreshold img) (grayImg img) then
        invertImg (binarize (chosenThreshold img) (grayImg img))
      else
        binarize (chosenThreshold img) (grayImg img) := rfl

theorem pipeline_binary (img : List Pixel) :
    ∀ q ∈ pipelineCore img, q.g = q.r ∧ q.b = q.r ∧ (q.r = 0 ∨ q.r = 255) := by
  rw [pipelineCore_eq]
  split_ifs
  · intro q hq
    obtain ⟨p, hp, rfl⟩ := List.mem_map.1 hq
    obtain ⟨h1, h2, h3⟩ := binarize_binary (chosenThreshold img) (grayImg img) p hp
    rcases h3 with h | h <;> simp [h]
  · exact binarize_binary _ _

theorem pipeline_polarity (img : List Pixel) :
    blackCountImg (pipelineCore img) ≤ whiteCountImg (pipelineCore img) := by
  have hbb := binarize_binary (chosenThreshold img) (grayImg img)
  have hbw : blackCountImg (binarize (chosenThreshold img) (grayImg img)) +
      whiteCount (chosenThreshold img) (grayImg img) = img.length := by
    rw [blackCountImg_binarize]
    exact length_grayImg img
  rw [pipelineCore_eq]
  split_ifs with hc
  · rw [whiteCountImg_invert _ fun q hq => (hbb q hq).2.2,
      blackCountImg_invert _ fun q hq => (hbb q hq).2.2,
      whiteCountImg_binarize]
    omega
  · rw [whiteCountImg_binarize]
    omega

/-! ### The pipeline core is a fixed point on its own output -/

theorem grayImg_fix (img : List Pixel)
    (h : ∀ q ∈ img, q.g = q.r ∧ q.b = q.r ∧ (q.r = 0 ∨ q.r = 255)) :
    grayImg img = img := by
  apply map_eq_self_of_mem
  intro q hq
  obtain ⟨hg, hb, hr⟩ := h q hq
  obtain ⟨r, g, b, a⟩ := q
  simp only at hg hb hr
  subst hg
  subst hb
  rcases hr with h0 | h255
  · subst h0
    simp [show luma 0 0 0 = 0 from by decide]
  · subst h255
    simp [show luma 255 255 255 = 255 from by decide]

theorem binarize_fix (threshold : Nat) (img : List Pixel) (hthr : threshold < 255)
    (h : ∀ q ∈ img, q.g = q.r ∧ q.b = q.r ∧ (q.r = 0 ∨ q.r = 255)) :
    binarize threshold img = img := by
  apply map_eq_self_of_mem
  intro q hq
  obtain ⟨hg, hb, hr⟩ := h q hq
  obtain ⟨r, g, b, a⟩ := q
  simp only at hg hb hr
  subst hg
  subst hb
  rcases hr with h0 | h255
  · subst h0
    simp [Nat.not_lt_zero]
  · subst h255
    simp [hthr]

theorem whiteCount_binary (threshold : Nat) (img : List Pixel) (hthr : threshold < 255)
    (h : ∀ q ∈ img, q.r = 0 ∨ q.r = 255) :
    whiteCount threshold img = whiteCountImg img := by
  unfold whiteCount whiteCountImg
  apply countP_congr_mem
  intro q hq
  rcases h q hq with h0 | h255
  · simp [h0]
  · simp [h255, hthr]

theorem pipeline_fix (img : List Pixel) :
    pipelineCore (pipelineCore img) = pipelineCore img := by
  have hbin := pipeline_binary img
  have hlum : ∀ q ∈ pipelineCore img, luma q.r q.g q.b < 256 := by
    intro q hq
    obtain ⟨hg, hb, hr⟩ := hbin q hq
    rw [hg, hb]
    rcases hr with h | h <;> rw [h] <;> decide
  have htotal : (pipelineCore img).length = wAcc (buildHist (pipelineCore img)) 256 :=
    (wAcc_buildHist _ hlum).symm
  have hthr : chosenThreshold (pipelineCore img) < 255 := otsu_lt_255 _ _ htotal
  have hgray : grayImg (pipelineCore img) = pipelineCore img :=
    grayImg_fix _ hbin
  have hbfix : binarize (chosenThreshold (pipelineCore img)) (pipelineCore img) =
      pipelineCore img :=
    binarize_fix _ _ hthr hbin
  have hwc : whiteCount (chosenThreshold (pipelineCore img)) (pipelineCore img) =
      whiteCountImg (pipelineCore img) :=
    whiteCount_binary _ _ hthr fun q hq => (hbin q hq).2.2
  have hpol := pipeline_polarity img
  have hpart := binary_partition (pipelineCore img) fun q hq => (hbin q hq).2.2
  rw [pipelineCore_eq (pipelineCore img), hgray, hwc, hbfix]
  rw [if_neg (by omega)]

/-! ### Degenerate and two-level histograms -/

theorem buildHist_uniform (img : List Pixel) (v : Nat)
    (hv : ∀ p ∈ img, luma p.r p.g p.b = v) (t : Nat) :
    buildHist img t = if t = v then img.length else 0 := by
  rw [buildHist_eq_countP]
  by_cases h : t = v
  · subst h
    rw [if_pos rfl]
    rw [List.countP_eq_length]
    intro p hp
    simp [hv p hp]
  · rw [if_neg h]
    rw [List.countP_eq_zero]
    intro p hp
    simp [hv p hp, h]

theorem wAcc_congr (f g : Nat → Nat) (a : Nat) (h : ∀ i, f i = g i) :
    wAcc f a = wAcc g a :=
  Finset.sum_congr rfl fun i _ => h i

theorem wAcc_single (v n a : Nat) :
    wAcc (fun t => if t = v then n else 0) a = if v < a then n else 0 := by
  unfold wAcc
  rw [Finset.sum_ite_eq' (Finset.range a) v (fun _ => n)]
  simp [Finset.mem_range]

theorem chosenThreshold_uniform (img : List Pixel) (v : Nat) (hb : v < 256)
    (hv : ∀ p ∈ img, luma p.r p.g p.b = v) : chosenThreshold img = 128 := by
  have hlum : ∀ p ∈ img, luma p.r p.g p.b < 256 := fun p hp => by rw [hv p hp]; exact hb
  have htotal : img.length = wAcc (buildHist img) 256 := (wAcc_buildHist img hlum).symm
  apply otsu_fallback _ _ htotal
  intro t _ hvalid
  obtain ⟨h1, h2⟩ := hvalid
  have hw : wAcc (buildHist img) (t + 1) = if v < t + 1 then img.length else 0 := by
    rw [wAcc_congr _ _ _ (buildHist_uniform img v hv)]
    exact wAcc_single v img.length (t + 1)
  rw [hw] at h1 h2
  by_cases hvt : v < t + 1
  · rw [if_pos hvt] at h2
    exact absurd h2 (lt_irrefl _)
  · rw [if_neg hvt] at h1
    exact absurd h1 (lt_irrefl _)

theorem otsu_two_point (hist : Nat → Nat) (va vb na nb : Nat)
    (hab : va < vb) (hvb : vb < 256) (hna : 0 < na) (hnb : 0 < nb)
    (hh : ∀ t, hist t = if t = va then na else if t = vb then nb else 0) :
    otsu hist (na + nb) = va := by
  have hne : va ≠ vb := Nat.ne_of_lt hab
  have hsum2 : ∀ a, wAcc hist a =
      (if va < a then na else 0) + (if vb < a then nb else 0) := by
    intro a
    unfold wAcc
    calc ∑ i ∈ Finset.range a, hist i
        = ∑ i ∈ Finset.range a,
            ((if i = va then na else 0) + (if i = vb then nb else 0)) := by
          refine Finset.sum_congr rfl fun i _ => ?_
          rw [hh i]
          by_cases h1 : i = va
          · subst h1
            simp [hne]
          · by_cases h2 : i = vb
            · subst h2
              simp [h1]
            · simp [h1, h2]
      _ = _ := by
          rw [Finset.sum_add_distrib,
            Finset.sum_ite_eq' (Finset.range a) va (fun _ => na),
            Finset.sum_ite_eq' (Finset.range a) vb (fun _ => nb)]
          simp [Finset.mem_range]
  have hsacc : ∀ a, sAcc hist a =
      (if va < a then va * na else 0) + (if vb < a then vb * nb else 0) := by
    intro a
    unfold sAcc
    calc ∑ i ∈ Finset.range a, i * hist i
        = ∑ i ∈ Finset.range a,
            ((if i = va then va * na else 0) + (if i = vb then vb * nb else 0)) := by
          refine Finset.sum_congr rfl fun i _ => ?_
          rw [hh i]
          by_cases h1 : i = va
          · subst h1
            simp [hne]
          · by_cases h2 : i = vb
            · subst h2
              simp [h1]
            · simp [h1, h2]
      _ = _ := by
          rw [Finset.sum_add_distrib,
            Finset.sum_ite_eq' (Finset.range a) va (fun _ => va * na),
            Finset.sum_ite_eq' (Finset.range a) vb (fun _ => vb * nb)]
          simp [Finset.mem_range]
  have hva256 : va < 256 := lt_trans hab hvb
  have htotal : na + nb = wAcc hist 256 := by
    rw [hsum2 256, if_pos hva256, if_pos hvb]
  have hvalid : ∀ t, OtsuValid hist (na + nb) t ↔ (va ≤ t ∧ t < vb) := by
    intro t
    unfold OtsuValid
    rw [hsum2 (t + 1)]
    by_cases h1 : va < t + 1 <;> by_cases h2 : vb < t + 1 <;>
      simp [h1, h2] <;> omega
  have hex : ∃ t, t < 256 ∧ OtsuValid hist (na + nb) t :=
    ⟨va, by omega, (hvalid va).2 ⟨le_refl va, hab⟩⟩
  obtain ⟨hr256, hrv, hmax, hmin⟩ := otsu_argmax hist (na + nb) htotal hex
  obtain ⟨hrlo, hrhi⟩ := (hvalid _).1 hrv
  have c1 : va < va + 1 := Nat.lt_succ_self va
  have c2 : va < otsu hist (na + nb) + 1 := by omega
  have c3 : ¬ vb < va + 1 := by omega
  have c4 : ¬ vb < otsu hist (na + nb) + 1 := by omega
  have hwa : wAcc hist (va + 1) = wAcc hist (otsu hist (na + nb) + 1) := by
    rw [hsum2 (va + 1), hsum2 (otsu hist (na + nb) + 1),
      if_pos c1, if_neg c3, if_pos c2, if_neg c4]
  have hsa : sAcc hist (va + 1) = sAcc hist (otsu hist (na + nb) + 1) := by
    rw [hsacc (va + 1), hsacc (otsu hist (na + nb) + 1),
      if_pos c1, if_neg c3, if_pos c2, if_neg c4]
  have hvareq : otsuVarF hist (na + nb) va =
      otsuVarF hist (na + nb) (otsu hist (na + nb)) := by
    unfold otsuVarF
    rw [hwa, hsa]
  have hle := hmin va (by omega) ((hvalid va).2 ⟨le_refl va, hab⟩)
    (congrArg F64.val hvareq)
  omega

/-! ### The scaler -/

theorem ceilDiv_spec (m : Nat) (hm : 0 < m) :
    2000 ≤ m * ((2000 + m - 1) / m) ∧
      (2000 + m - 1) / m = ⌈(2000 : ℚ) / (m : ℚ)⌉₊ := by
  obtain ⟨q, hq⟩ : ∃ q, (2000 + m - 1) / m = q := ⟨_, rfl⟩
  obtain ⟨r, hr⟩ : ∃ r, (2000 + m - 1) % m = r := ⟨_, rfl⟩
  have hdm : m * q + r = 2000 + m - 1 := by
    rw [← hq, ← hr]
    exact Nat.div_add_mod _ m
  have hmod : r < m := by
    rw [← hr]
    exact Nat.mod_lt _ hm
  rw [hq]
  have h1 : 2000 ≤ m * q := by omega
  have hq1 : 1 ≤ q := by
    rcases Nat.eq_zero_or_pos q with h0 | h0
    · subst h0
      rw [Nat.mul_zero] at h1
      omega
    · exact h0
  have h2 : (q - 1) * m < 2000 := by
    rw [Nat.sub_mul, Nat.one_mul, Nat.mul_comm q m]
    omega
  refine ⟨h1, ?_⟩
  symm
  rw [Nat.ceil_eq_iff (by omega)]
  have hmQ : (0 : ℚ) < (m : ℚ) := by exact_mod_cast hm
  constructor
  · rw [lt_div_iff₀ hmQ]
    exact_mod_cast h2
  · rw [div_le_iff₀ hmQ]
    have h1' : 2000 ≤ q * m := by
      rw [Nat.mul_comm]
      exact h1
    exact_mod_cast h1'

/-! ### Uniform (replicated) buffers -/

theorem countP_replicate {α : Type} (p : α → Bool) (n : Nat) (x : α) :
    (List.replicate n x).countP p = if p x then n else 0 := by
  induction n with
  | zero => simp
  | succ n ih =>
    rw [List.replicate_succ, List.countP_cons, ih]
    cases hx : p x <;> simp [hx]

/-! ### Claimed properties -/

/-- C10: for every pixel with channel values in [0,255], the computed
grayscale value `g = round(0.299·R + 0.587·G + 0.114·B)` lies in [0,255]
(the luma weights sum to one), so the histogram access `hist[g]` stays
within the 256-entry histogram and the value written back to the color
channels is a valid byte.  The bound is proved for the actual float64
evaluation: the three rounded products and two rounded sums stay below
`255.5`, so `Math.round` cannot reach 256. -/
theorem luma_byte_range (r g b : Nat) (hr : r ≤ 255) (hg : g ≤ 255) (hb : b ≤ 255) :
    luma r g b ≤ 255 ∧ luma r g b < 256 :=
  ⟨luma_le r g b hr hg hb, Nat.lt_succ_of_le (luma_le r g b hr hg hb)⟩

theorem luma_byte_range_witness : luma 255 255 255 ≤ 255 ∧ luma 255 255 255 < 256 :=
  luma_byte_range 255 255 255 (le_refl 255) (le_refl 255) (le_refl 255)

/-- C7: for positive dimensions the scaler picks `ceil(2000 / max(w,h))`
when `max(w,h) < 2000` and `1` otherwise; the output dimensions
`w·scale × h·scale` have longer side at least 2000; and an image whose
longer side is 500 is scaled exactly 4×. -/
theorem scaler_spec (width height : Nat) (hw : 0 < width) (_hh : 0 < height) :
    (max width height < 2000 →
      computeScale width height = ⌈(2000 : ℚ) / ((max width height : Nat) : ℚ)⌉₊) ∧
    (2000 ≤ max width height → computeScale width height = 1) ∧
    2000 ≤ max (width * computeScale width height) (height * computeScale width height) ∧
    (max width height = 500 → computeScale width height = 4) := by
  have hm : 0 < max width height := lt_of_lt_of_le hw (le_max_left _ _)
  have hkey : 2000 ≤ max width height * computeScale width height := by
    simp only [computeScale]
    by_cases hlt : max width height < 2000
    · rw [if_pos hlt]
      exact (ceilDiv_spec _ hm).1
    · rw [if_neg hlt, Nat.mul_one]
      omega
  refine ⟨fun hlt => ?_, fun hge => ?_, ?_, fun h500 => ?_⟩
  · simp only [computeScale]
    rw [if_pos hlt]
    exact (ceilDiv_spec _ hm).2
  · simp only [computeScale]
    rw [if_neg (not_lt.2 hge)]
  · calc 2000 ≤ max width height * computeScale width height := hkey
      _ = max (width * computeScale width height)
            (height * computeScale width height) := by
          rcases le_total width height with h | h
          · rw [max_eq_right h, max_eq_right (Nat.mul_le_mul_right _ h)]
          · rw [max_eq_left h, max_eq_left (Nat.mul_le_mul_right _ h)]
  · simp only [computeScale, h500]
    norm_num

theorem scaler_spec_witness :
    computeScale 500 500 = 4 ∧
      2000 ≤ max (500 * computeScale 500 500) (500 * computeScale 500 500) := by
  have h := scaler_spec 500 500 (by norm_num) (by norm_num)
  exact ⟨h.2.2.2 rfl, h.2.2.1⟩

/-- C1: the orchestrator's failure paths, evaluated.  Decode failure
(`img.onerror`) and canvas-context failure (caught exception) both resolve
with the original input bytes; but when the encoder fails (`canvas.toBlob`
passes `null` to its callback) the callback throws outside the `try` block
and the promise never settles (`none`) — the original bytes are not
returned, contrary to the documented fallback-on-encode-failure policy. -/
theorem preprocess_failure_paths :
    preprocessForOcr [7, 8, 9] none true (fun _ => some [1]) = some [7, 8, 9] ∧
    preprocessForOcr [7, 8, 9] (some ⟨1, 1, [⟨0, 0, 0, 255⟩]⟩) false
      (fun _ => some [1]) = some [7, 8, 9] ∧
    preprocessForOcr [7, 8, 9] (some ⟨1, 1, [⟨0, 0, 0, 255⟩]⟩) true
      (fun _ => none) = none :=
  ⟨rfl, rfl, rfl⟩

/-- C6 counterexample: the grayscale value actually computed by the code is
`Math.round` of the float64 evaluation of `0.299R + 0.587G + 0.114B`, which
differs from the exact rounding of the exact rational weighted sum.  For the
pixel `(R,G,B) = (0,36,12)` the float64 sum is just below `22.5` (the exact
sum is exactly `22.5`), so the code computes gray 22 while the claim's exact
formula gives 23. -/
theorem luma_exact_round_mismatch :
    luma 0 36 12 = 22 ∧ lumaExact 0 36 12 = 23 := by
  constructor
  · decide
  · decide

/-- C6 (amended): the single luminance pass writes
`g = Math.round` of the float64 value of `0.299R+0.587G+0.114B` (not of the
exact rational sum) into all three color channels leaving alpha untouched;
bin `g` of the histogram receives one increment per pixel of grayscale value
`g`; and the 256 bins sum to the pixel count `width × height`. -/
theorem luminance_pass_spec (pb : PixelBuffer) (hwf : pb.Wf) :
    (∀ i : Nat, (grayImg pb.data)[i]? = pb.data[i]?.map fun p =>
      (⟨luma p.r p.g p.b, luma p.r p.g p.b, luma p.r p.g p.b, p.a⟩ : Pixel)) ∧
    (∀ t : Nat, buildHist pb.data t =
      pb.data.countP fun p => decide (t = luma p.r p.g p.b)) ∧
    ∑ t ∈ Finset.range 256, buildHist pb.data t = pb.width * pb.height := by
  obtain ⟨hlen, hch⟩ := hwf
  refine ⟨fun i => ?_, fun t => buildHist_eq_countP pb.data t, ?_⟩
  · rw [grayImg, List.getElem?_map]
  · have hlum : ∀ p ∈ pb.data, luma p.r p.g p.b < 256 := fun p hp =>
      Nat.lt_succ_of_le
        (luma_le p.r p.g p.b (hch p hp).1 (hch p hp).2.1 (hch p hp).2.2.1)
    calc ∑ t ∈ Finset.range 256, buildHist pb.data t
        = wAcc (buildHist pb.data) 256 := rfl
      _ = pb.data.length := wAcc_buildHist pb.data hlum
      _ = pb.width * pb.height := hlen

theorem luminance_pass_spec_witness :
    ∑ t ∈ Finset.range 256, buildHist [(⟨1, 2, 3, 4⟩ : Pixel)] t = 1 := by
  have h := luminance_pass_spec ⟨1, 1, [⟨1, 2, 3, 4⟩]⟩ ⟨rfl, by decide⟩
  exact h.2.2

/-- C4: after the binarizer runs on the grayscale buffer, pixel `i` becomes
`(255,255,255)` when its grayscale value strictly exceeds the threshold and
`(0,0,0)` otherwise, with alpha preserved; every color channel of the output
is exactly 0 or 255; and the accumulated white count equals the number of
pixels whose grayscale value exceeds the threshold. -/
theorem binarizer_spec (img : List Pixel) (threshold : Nat) :
    (∀ i : Nat, (binarize threshold (grayImg img))[i]? = img[i]?.map fun p =>
      if threshold < luma p.r p.g p.b then (⟨255, 255, 255, p.a⟩ : Pixel)
      else (⟨0, 0, 0, p.a⟩ : Pixel)) ∧
    (∀ q ∈ binarize threshold (grayImg img),
      (q.r = 0 ∨ q.r = 255) ∧ (q.g = 0 ∨ q.g = 255) ∧ (q.b = 0 ∨ q.b = 255)) ∧
    whiteCount threshold (grayImg img) =
      img.countP fun p => decide (threshold < luma p.r p.g p.b) := by
  refine ⟨fun i => ?_, fun q hq => ?_, ?_⟩
  · rw [binarize, grayImg, List.getElem?_map, List.getElem?_map]
    cases himg : img[i]? with
    | none => rfl
    | some p =>
      by_cases h : threshold < luma p.r p.g p.b
      · simp [h]
      · simp [h]
  · obtain ⟨hg, hb, hr⟩ := binarize_binary threshold (grayImg img) q hq
    rw [hg, hb]
    exact ⟨hr, hr, hr⟩
  · rw [whiteCount, grayImg, List.countP_map]
    apply countP_congr_mem
    intro p _
    rfl

theorem binarizer_spec_witness :
    (binarize 50 (grayImg [(⟨200, 0, 0, 3⟩ : Pixel)]))[0]? =
      some (⟨255, 255, 255, 3⟩ : Pixel) ∧
    whiteCount 50 (grayImg [(⟨200, 0, 0, 3⟩ : Pixel)]) = 1 := by
  have h := binarizer_spec [(⟨200, 0, 0, 3⟩ : Pixel)] 50
  constructor
  · rw [h.1 0]
    decide
  · rw [h.2.2]
    decide

/-- C2: for any buffer the Otsu solver returns a threshold in [0,255]; on a
perfectly uniform-intensity buffer (all pixels of the same grayscale value,
a degenerate histogram with no valid split) the threshold is the fallback,
exactly 128. -/
theorem otsu_threshold_range (img : List Pixel) (v : Nat) (hne : img ≠ [])
    (hwf : ∀ p ∈ img, p.r ≤ 255 ∧ p.g ≤ 255 ∧ p.b ≤ 255) :
    chosenThreshold img ≤ 255 ∧
      ((∀ p ∈ img, luma p.r p.g p.b = v) → chosenThreshold img = 128) := by
  refine ⟨otsu_le_255 _ _, fun hv => ?_⟩
  obtain ⟨p0, hp0⟩ : ∃ p, p ∈ img := by
    cases img with
    | nil => exact absurd rfl hne
    | cons x l => exact ⟨x, List.mem_cons_self x l⟩
  have hb : v < 256 := by
    rw [← hv p0 hp0]
    exact Nat.lt_succ_of_le
      (luma_le _ _ _ (hwf p0 hp0).1 (hwf p0 hp0).2.1 (hwf p0 hp0).2.2)
  exact chosenThreshold_uniform img v hb hv

theorem otsu_threshold_range_witness :
    chosenThreshold [(⟨5, 5, 5, 9⟩ : Pixel)] ≤ 255 ∧
      chosenThreshold [(⟨5, 5, 5, 9⟩ : Pixel)] = 128 := by
  have h := otsu_threshold_range [⟨5, 5, 5, 9⟩] 5 (by decide) (by decide)
  exact ⟨h.1, h.2 (by decide)⟩

/-- C3 (amended): for a histogram consistent with a positive pixel total,
whenever some candidate threshold splits the pixels into two non-empty
classes, the solver returns such a candidate (in 0..255) whose float64
between-class variance `wB * wF * (mB - mF) ** 2` — the value the loop
actually compares — is maximal, and the smallest among those maximizers:
skipped candidates (empty background) and the candidates at or after the
stop (empty foreground) are exactly the non-scored ones, and the running
maximum is updated only on strict float comparison, so the first float
maximizer wins.  The claim's "maximal between-class variance" read in exact
real arithmetic is refuted by `otsu_exact_tie_mismatch` below. -/
theorem otsu_first_maximizer (hist : Nat → Nat) (total : Nat)
    (htotal : total = wAcc hist 256) (_hpos : 0 < total)
    (hex : ∃ t, t < 256 ∧ OtsuValid hist total t) :
    otsu hist total < 256 ∧ OtsuValid hist total (otsu hist total) ∧
      (∀ t, t < 256 → OtsuValid hist total t →
        (otsuVarF hist total t).val ≤ (otsuVarF hist total (otsu hist total)).val) ∧
      (∀ t, t < 256 → OtsuValid hist total t →
        (otsuVarF hist total t).val = (otsuVarF hist total (otsu hist total)).val →
        otsu hist total ≤ t) :=
  otsu_argmax hist total htotal hex

set_option maxRecDepth 8000 in
theorem otsu_first_maximizer_witness :
    OtsuValid (fun t => if t = 10 then 1 else if t = 200 then 1 else 0) 2
        (otsu (fun t => if t = 10 then 1 else if t = 200 then 1 else 0) 2) ∧
      otsu (fun t => if t = 10 then 1 else if t = 200 then 1 else 0) 2 < 256 := by
  have h := otsu_first_maximizer
    (fun t => if t = 10 then 1 else if t = 200 then 1 else 0) 2
    (by decide) (by decide) ⟨10, by decide, by decide⟩
  exact ⟨h.2.1, h.1⟩

set_option maxRecDepth 40000 in
/-- C3 counterexample: on the histogram `{0 ↦ 1, 2 ↦ 2, 4 ↦ 1}` (four
pixels) the code returns threshold 2, yet candidate 0 is also a valid split
and its exact between-class variance equals that of candidate 2 (both are
`64/3`).  Under the claim's exact-arithmetic reading, the first-maximizer
tie-break would have to return 0, not 2: the float64 variances of the two
candidates differ in the last bit (`21.333333333333336 > 21.333333333333332`),
so the comparison the code makes is genuinely the float one. -/
theorem otsu_exact_tie_mismatch :
    otsu hist4 4 = 2 ∧ OtsuValid hist4 4 0 ∧
      otsuVarExact hist4 4 0 = otsuVarExact hist4 4 2 := by
  have e1 : wAcc hist4 (0 + 1) = 1 := by decide
  have e2 : sAcc hist4 (0 + 1) = 0 := by decide
  have e3 : wAcc hist4 (2 + 1) = 3 := by decide
  have e4 : sAcc hist4 (2 + 1) = 4 := by decide
  have e5 : sumAll hist4 = 8 := by decide
  refine ⟨by decide, by decide, ?_⟩
  unfold otsuVarExact
  rw [e1, e2, e3, e4, e5]
  push_cast
  norm_num

/-- C5: the inversion pass runs exactly when black pixels strictly
outnumber white pixels after binarization (`blackCount > whiteCount`; a tie
does not invert), and consequently the returned image always satisfies
black count ≤ white count. -/
theorem polarity_spec (img : List Pixel) :
    (img.length - whiteCount (chosenThreshold img) (grayImg img) >
        whiteCount (chosenThreshold img) (grayImg img) →
      pipelineCore img =
        invertImg (binarize (chosenThreshold img) (grayImg img))) ∧
    (img.length - whiteCount (chosenThreshold img) (grayImg img) ≤
        whiteCount (chosenThreshold img) (grayImg img) →
      pipelineCore img = binarize (chosenThreshold img) (grayImg img)) ∧
    blackCountImg (pipelineCore img) ≤ whiteCountImg (pipelineCore img) := by
  refine ⟨fun hgt => ?_, fun hle => ?_, pipeline_polarity img⟩
  · rw [pipelineCore_eq, if_pos hgt]
  · rw [pipelineCore_eq, if_neg (not_lt.2 hle)]

theorem polarity_spec_witness :
    pipelineCore [(⟨0, 0, 0, 1⟩ : Pixel)] =
      invertImg (binarize (chosenThreshold [(⟨0, 0, 0, 1⟩ : Pixel)])
        (grayImg [(⟨0, 0, 0, 1⟩ : Pixel)])) ∧
    blackCountImg (pipelineCore [(⟨0, 0, 0, 1⟩ : Pixel)]) ≤
      whiteCountImg (pipelineCore [(⟨0, 0, 0, 1⟩ : Pixel)]) := by
  have h := polarity_spec [⟨0, 0, 0, 1⟩]
  have hw : ∀ t : Nat, whiteCount t (grayImg [(⟨0, 0, 0, 1⟩ : Pixel)]) = 0 := by
    intro t
    rw [whiteCount, List.countP_eq_zero]
    intro p hp
    rw [show grayImg [(⟨0, 0, 0, 1⟩ : Pixel)] = [⟨0, 0, 0, 1⟩] from by decide,
      List.mem_singleton] at hp
    subst hp
    simp
  refine ⟨h.1 ?_, h.2.2⟩
  rw [hw]
  simp

/-- C8 (amended): re-running the full pipeline on its own output returns
the same image again, so in particular neither the white-pixel count nor
the black-pixel count changes on reprocessing. -/
theorem rerun_stable (img : List Pixel) :
    pipelineCore (pipelineCore img) = pipelineCore img ∧
      whiteCountImg (pipelineCore (pipelineCore img)) =
        whiteCountImg (pipelineCore img) ∧
      blackCountImg (pipelineCore (pipelineCore img)) =
        blackCountImg (pipelineCore img) :=
  ⟨pipeline_fix img, by rw [pipeline_fix img], by rw [pipeline_fix img]⟩

/-- C8 counterexample: on the two-pixel buffer with grays 10 and 200, the
first run chooses Otsu threshold 10, but re-running the pipeline on its
(binarized, 0/255-valued) output chooses threshold 0: the chosen Otsu
threshold does change under reprocessing. -/
theorem rerun_threshold_changes :
    chosenThreshold [(⟨10, 10, 10, 255⟩ : Pixel), ⟨200, 200, 200, 255⟩] = 10 ∧
    chosenThreshold
      (pipelineCore [(⟨10, 10, 10, 255⟩ : Pixel), ⟨200, 200, 200, 255⟩]) = 0 ∧
    chosenThreshold
        (pipelineCore [(⟨10, 10, 10, 255⟩ : Pixel), ⟨200, 200, 200, 255⟩]) ≠
      chosenThreshold [(⟨10, 10, 10, 255⟩ : Pixel), ⟨200, 200, 200, 255⟩] := by
  have hh1 : ∀ t, buildHist [(⟨10, 10, 10, 255⟩ : Pixel), ⟨200, 200, 200, 255⟩] t =
      if t = 10 then 1 else if t = 200 then 1 else 0 := by
    intro t
    rw [buildHist_eq_countP, List.countP_cons, List.countP_cons, List.countP_nil]
    by_cases ha : t = 10
    · subst ha
      decide
    · by_cases hb : t = 200
      · subst hb
        decide
      · simp [show luma 10 10 10 = 10 from by decide,
          show luma 200 200 200 = 200 from by decide, ha, hb]
  have h1 : chosenThreshold [(⟨10, 10, 10, 255⟩ : Pixel), ⟨200, 200, 200, 255⟩] = 10 :=
    otsu_two_point _ 10 200 1 1 (by norm_num) (by norm_num) (by norm_num)
      (by norm_num) hh1
  have hpipe : pipelineCore [(⟨10, 10, 10, 255⟩ : Pixel), ⟨200, 200, 200, 255⟩] =
      [⟨0, 0, 0, 255⟩, ⟨255, 255, 255, 255⟩] := by
    rw [pipelineCore_eq, h1]
    decide
  have hh2 : ∀ t, buildHist [(⟨0, 0, 0, 255⟩ : Pixel), ⟨255, 255, 255, 255⟩] t =
      if t = 0 then 1 else if t = 255 then 1 else 0 := by
    intro t
    rw [buildHist_eq_countP, List.countP_cons, List.countP_cons, List.countP_nil]
    by_cases ha : t = 0
    · subst ha
      decide
    · by_cases hb : t = 255
      · subst hb
        decide
      · simp [show luma 0 0 0 = 0 from by decide,
          show luma 255 255 255 = 255 from by decide, ha, hb]
  have h2 : chosenThreshold
      (pipelineCore [(⟨10, 10, 10, 255⟩ : Pixel), ⟨200, 200, 200, 255⟩]) = 0 := by
    rw [hpipe]
    exact otsu_two_point _ 0 255 1 1 (by norm_num) (by norm_num) (by norm_num)
      (by norm_num) hh2
  exact ⟨h1, h2, by rw [h1, h2]; norm_num⟩

/-- C9: the 100×100 all-mid-gray buffer (10000 pixels of gray 127) resolves
the threshold to the fallback 128, binarizes to all black (white count 0,
black count 10000), and the polarity correction inverts it to an entirely
white image. -/
theorem midgray_scenario :
    chosenThreshold (List.replicate 10000 (⟨127, 127, 127, 255⟩ : Pixel)) = 128 ∧
    whiteCount 128 (grayImg (List.replicate 10000 (⟨127, 127, 127, 255⟩ : Pixel))) = 0 ∧
    (List.replicate 10000 (⟨127, 127, 127, 255⟩ : Pixel)).length -
      whiteCount 128 (grayImg (List.replicate 10000 (⟨127, 127, 127, 255⟩ : Pixel))) =
        10000 ∧
    pipelineCore (List.replicate 10000 (⟨127, 127, 127, 255⟩ : Pixel)) =
      List.replicate 10000 (⟨255, 255, 255, 255⟩ : Pixel) := by
  have hv : ∀ p ∈ List.replicate 10000 (⟨127, 127, 127, 255⟩ : Pixel),
      luma p.r p.g p.b = 127 := by
    intro p hp
    rw [List.eq_of_mem_replicate hp]
    decide
  have hthr : chosenThreshold (List.replicate 10000 (⟨127, 127, 127, 255⟩ : Pixel)) =
      128 := chosenThreshold_uniform _ 127 (by norm_num) hv
  have hgray : grayImg (List.replicate 10000 (⟨127, 127, 127, 255⟩ : Pixel)) =
      List.replicate 10000 (⟨127, 127, 127, 255⟩ : Pixel) := by
    rw [grayImg, List.map_replicate]
    rfl
  have hwc' : whiteCount 128 (List.replicate 10000 (⟨127, 127, 127, 255⟩ : Pixel)) =
      0 := by
    rw [whiteCount, countP_replicate]
    norm_num
  have hwc : whiteCount 128
      (grayImg (List.replicate 10000 (⟨127, 127, 127, 255⟩ : Pixel))) = 0 := by
    rw [hgray]
    exact hwc'
  have hcond : 0 < (List.replicate 10000 (⟨127, 127, 127, 255⟩ : Pixel)).length - 0 := by
    rw [List.length_replicate]
    omega
  refine ⟨hthr, hwc, by rw [hwc, List.length_replicate], ?_⟩
  rw [pipelineCore_eq, hthr, hgray, hwc', if_pos hcond, binarize, List.map_replicate,
    invertImg, List.map_replicate]
  rfl
